import Mathlib

/-!
Verification of the tree-gen support library and generator against its
specification.

The development shallowly embeds, in Lean, the parts of the C++ source that
the checked claims are about:

* the CBOR codec (`src/tree-cbor.cpp`): the streaming `StructureWriter` /
  `ArrayWriter` / `MapWriter` byte emission, and the validating `Reader`
  (`check_and_seek`, `read_intlike`, `read_stringlike`, the `as_*`
  accessors);
* `PointerMap::add_raw` and `Completable::check_well_formed` /
  `is_well_formed` (`src/tree-base.cpp`);
* `Node::all_fields` of the generator (`generator/tree-gen.cpp`);
* the bodies of the `serialize` methods emitted by the C++ and Python
  emitters (`generator/tree-gen-cpp.cpp`, `generator/tree-gen-python.cpp`).

Bytes are modelled as natural numbers; a byte string is a `List Nat` whose
entries are below 256 (the C++ `std::string` data can hold nothing else).
`size_t` offsets are modelled as `Nat`.  `uint64_t` arithmetic in the code
never overflows on byte data (at most eight byte reads are accumulated), so
the accumulator is an exact `Nat`.  `int64_t` values are modelled as `Int`
constrained to the signed 64-bit range where the C++ type forces it.
C++ exceptions are modelled with `Except String`, carrying the exact
message texts of the source.  `double` values are modelled by their 64-bit
IEEE-754 bit pattern (the writer and reader only ever `memcpy` the
pattern, so bit-level round-tripping is the property the code provides).
-/

namespace TreeGen

/-- Decidable equality of `Except` results, used to evaluate the model on
concrete inputs. -/
instance {ε α : Type} [DecidableEq ε] [DecidableEq α] : DecidableEq (Except ε α)
  | .error e1, .error e2 =>
    if h : e1 = e2 then .isTrue (by rw [h]) else .isFalse (by simp [h])
  | .error _, .ok _ => .isFalse (by simp)
  | .ok _, .error _ => .isFalse (by simp)
  | .ok a1, .ok a2 =>
    if h : a1 = a2 then .isTrue (by rw [h]) else .isFalse (by simp [h])

/-- Byte strings: each entry is a byte (below 256 for data that a C++
`std::string` can actually hold). -/
abbrev Bytes := List Nat

namespace Cbor

/-- Big-endian byte rendering of the low `8*n` bits of `value`, as produced
by the chains of `static_cast<uint8_t>(value >> k)` stores in
`StructureWriter::write_int` and `write_float`. -/
def beBytes : Nat → Nat → Bytes
  | 0, _ => []
  | n + 1, value => (value >>> (8 * n)) % 256 :: beBytes n value

/-- The bytes emitted by `StructureWriter::write_int` for a non-negative
encoded magnitude `value` and a major type `major` (already 1 for negative
inputs): initial byte `major << 5` with the additional-information code,
followed by the big-endian magnitude bytes of the selected width. -/
def intHeader (major value : Nat) : Bytes :=
  if value < 24 then [(major * 32 + value) % 256]
  else if value < 0x100 then (major * 32 + 24) % 256 :: beBytes 1 value
  else if value < 0x10000 then (major * 32 + 25) % 256 :: beBytes 2 value
  else if value < 0x100000000 then (major * 32 + 26) % 256 :: beBytes 4 value
  else (major * 32 + 27) % 256 :: beBytes 8 value

/-- The additional-information code selected by `write_int` for a given
magnitude. -/
def intCode (value : Nat) : Nat :=
  if value < 24 then value
  else if value < 0x100 then 24
  else if value < 0x10000 then 25
  else if value < 0x100000000 then 26
  else 27

/-- `StructureWriter::write_int(int_value, major)`: negative inputs switch
the major type to 1 and encode the magnitude `-1 - int_value`. -/
def writeIntMajor (intValue : Int) (major : Nat) : Bytes :=
  if intValue < 0 then intHeader 1 (-1 - intValue).toNat
  else intHeader major intValue.toNat

/-- `StructureWriter::write_int(value)` as used by `append_int`. -/
def writeInt (intValue : Int) : Bytes :=
  writeIntMajor intValue 0

/-- `StructureWriter::write_null`. -/
def writeNull : Bytes := [0xF6]

/-- `StructureWriter::write_bool`. -/
def writeBool (b : Bool) : Bytes := [if b then 0xF5 else 0xF4]

/-- `StructureWriter::write_float`: the tag byte 0xFB followed by the eight
bytes of the IEEE-754 bit pattern, most significant first (the source
`memcpy`s the little-endian pattern and then swaps it pairwise). -/
def writeFloat (bits : Nat) : Bytes :=
  0xFB :: beBytes 8 bits

/-- `StructureWriter::write_string`: `write_int(value.size(), 3)` followed
by the string data. -/
def writeString (s : Bytes) : Bytes :=
  writeIntMajor (s.length : Int) 3 ++ s

/-- `StructureWriter::write_binary`: `write_int(value.size(), 2)` followed
by the string data. -/
def writeBinary (s : Bytes) : Bytes :=
  writeIntMajor (s.length : Int) 2 ++ s

/-- The header byte written by the `ArrayWriter` constructor
(indefinite-length array). -/
def arrayHeader : Bytes := [0x9F]

/-- The header byte written by the `MapWriter` constructor
(indefinite-length map). -/
def mapHeader : Bytes := [0xBF]

/-- The break byte written by `StructureWriter::close`. -/
def breakByte : Bytes := [0xFF]

/-- C1/C6 helper: the magnitude that `write_int` actually encodes for a
signed input (`-1 - v` for negative `v`, `v` itself otherwise). -/
def encodedMagnitude (intValue : Int) : Nat :=
  if intValue < 0 then (-1 - intValue).toNat else intValue.toNat

/-- Error result standing for exhaustion of the termination fuel of the
model; the C++ loops it models terminate because every iteration advances
the offset, so all theorems below are stated with enough fuel for this
result never to arise. -/
def fuelMsg : String := "model fuel exhausted"

/-- `Reader::read_at`: range-checked byte access relative to the current
slice. -/
def readAt (d : Bytes) (off : Nat) : Except String Nat :=
  if off < d.length then .ok (d.getD off 0)
  else .error "invalid CBOR: trying to read past extents of current slice"

/-- `Reader::read_intlike`: decode the additional-information field `info`,
reading the 1/2/4/8 trailing big-endian bytes it calls for; returns the
value and the offset moved past the integer data.  The C++ accumulator
`value <<= 8; value |= byte` is `value * 256 + byte` on byte data, and
never overflows `uint64_t`. -/
def readIntlike (d : Bytes) (info off : Nat) : Except String (Nat × Nat) :=
  if info < 24 then .ok (info, off) else
  (readAt d off).bind fun v0 =>
  if info < 25 then .ok (v0, off + 1) else
  (readAt d (off + 1)).bind fun v1 =>
  if info < 26 then .ok (v0 * 256 + v1, off + 2) else
  (readAt d (off + 2)).bind fun v2 =>
  (readAt d (off + 3)).bind fun v3 =>
  if info < 27 then .ok (((v0 * 256 + v1) * 256 + v2) * 256 + v3, off + 4) else
  (readAt d (off + 4)).bind fun v4 =>
  (readAt d (off + 5)).bind fun v5 =>
  (readAt d (off + 6)).bind fun v6 =>
  (readAt d (off + 7)).bind fun v7 =>
  if info < 28 then
    .ok ((((((v0 * 256 + v1) * 256 + v2) * 256 + v3) * 256 + v4) * 256 + v5)
      * 256 * 256 + v6 * 256 + v7, off + 8) else
  .error "invalid CBOR: illegal additional info for integer or object length"

mutual

/-- `Reader::check_and_seek`: validate the object starting at `off` and
return the offset just past it.  The C++ recursion terminates because the
offset strictly advances; the explicit fuel only bounds the call depth of
the model. -/
def checkAndSeek : Nat → Bytes → Nat → Except String Nat
  | 0, _, _ => .error fuelMsg
  | fuel + 1, d, off =>
    (readAt d off).bind fun initial =>
    let type := initial / 32
    let info := initial % 32
    if type ≤ 1 then
      (readIntlike d info (off + 1)).map Prod.snd
    else if type ≤ 3 then
      if info = 31 then strChunks fuel d (off + 1) type
      else (readIntlike d info (off + 1)).bind fun li => .ok (li.2 + li.1)
    else if type = 4 then
      if info = 31 then indefItems fuel d (off + 1) false
      else (readIntlike d info (off + 1)).bind fun ni =>
        defItems fuel d ni.2 false ni.1
    else if type = 5 then
      if info = 31 then indefItems fuel d (off + 1) true
      else (readIntlike d info (off + 1)).bind fun ni =>
        defItems fuel d ni.2 true ni.1
    else if type = 6 then
      (readIntlike d info (off + 1)).bind fun ti => checkAndSeek fuel d ti.2
    else
      if info = 20 ∨ info = 21 ∨ info = 22 then .ok (off + 1)
      else if info = 23 then
        .error "invalid CBOR: undefined value is not supported"
      else if info = 25 then
        .error "invalid CBOR: half-precision float is not supported"
      else if info = 26 then
        .error "invalid CBOR: single-precision float is not supported"
      else if info = 27 then .ok (off + 1 + 8)
      else if info = 31 then .error "invalid CBOR: unexpected break"
      else .error "invalid CBOR: unknown type code"

/-- The indefinite-length string loop of `check_and_seek` (major types 2
and 3): break-terminated chunks whose major type must match `type`. -/
def strChunks : Nat → Bytes → Nat → Nat → Except String Nat
  | 0, _, _, _ => .error fuelMsg
  | fuel + 1, d, off, type =>
    (readAt d off).bind fun subInitial =>
    if subInitial = 0xFF then .ok (off + 1)
    else if subInitial / 32 ≠ type then
      .error "invalid CBOR: illegal indefinite-length string component"
    else
      (readIntlike d (subInitial % 32) (off + 1)).bind fun li =>
      strChunks fuel d (li.2 + li.1) type

/-- The indefinite-length array/map loop of `check_and_seek`: validate
objects (pairs of objects when `isMap`) until a break byte. -/
def indefItems : Nat → Bytes → Nat → Bool → Except String Nat
  | 0, _, _, _ => .error fuelMsg
  | fuel + 1, d, off, isMap =>
    (readAt d off).bind fun b =>
    if b = 0xFF then .ok (off + 1)
    else
      (if isMap then
        (checkAndSeek fuel d off).bind fun off2 => checkAndSeek fuel d off2
      else checkAndSeek fuel d off).bind fun offNext =>
      indefItems fuel d offNext isMap

/-- The definite-length array/map loop of `check_and_seek`: validate `n`
objects (pairs of objects when `isMap`). -/
def defItems : Nat → Bytes → Nat → Bool → Nat → Except String Nat
  | _, _, off, _, 0 => .ok off
  | 0, _, _, _, _ + 1 => .error fuelMsg
  | fuel + 1, d, off, isMap, n + 1 =>
    (if isMap then
      (checkAndSeek fuel d off).bind fun off2 => checkAndSeek fuel d off2
    else checkAndSeek fuel d off).bind fun offNext =>
    defItems fuel d offNext isMap n

end

/-- `Reader::check`: validate the whole slice and require the walk to end
exactly at its end. -/
def readerCheck (fuel : Nat) (d : Bytes) : Except String Unit :=
  (checkAndSeek fuel d 0).bind fun off =>
  if off = d.length then .ok ()
  else .error "invalid CBOR: garbage at end of outer object or multiple objects"

/-- The `Reader(std::string&&)` constructor: reject empty input, then run
the structural check.  Success of this function is success of reader
construction. -/
def mkReader (fuel : Nat) (d : Bytes) : Except String Unit :=
  if d.length = 0 then .error "invalid CBOR: zero-size object"
  else readerCheck fuel d

/-- The subslice constructor `Reader(parent, offs, len)`: extent and
non-emptiness checks, then transparent skipping of one semantic tag. -/
def mkSlice (d : Bytes) (offs len : Nat) : Except String Bytes :=
  if offs + len > d.length then
    .error "invalid CBOR: trying to slice past extents of current slice"
  else if len = 0 then
    .error "invalid CBOR: trying to make an empty slice"
  else
    let s := (d.drop offs).take len
    (readAt s 0).bind fun initial =>
    if initial / 32 = 6 then
      (readIntlike s (initial % 32) 1).bind fun ti =>
      if len - ti.2 = 0 then
        .error "invalid CBOR: semantic tag has no value"
      else .ok (s.drop ti.2)
    else .ok s

/-- `Reader::get_type_name`. -/
def getTypeName (d : Bytes) : Except String String :=
  (readAt d 0).bind fun initial =>
  let type := initial / 32
  let info := initial % 32
  if type ≤ 1 then .ok "integer"
  else if type = 2 then .ok "binary string"
  else if type = 3 then .ok "UTF8 string"
  else if type = 4 then .ok "array"
  else if type = 5 then .ok "map"
  else if type = 7 ∧ (info = 20 ∨ info = 21) then .ok "boolean"
  else if type = 7 ∧ info = 22 then .ok "null"
  else if type = 7 ∧ info = 27 then .ok "float"
  else .ok "unknown type"

/-- The error raised by the typed accessors when the slice holds a
different kind of object. -/
def unexpected (expected : String) (d : Bytes) : Except String α :=
  (getTypeName d).bind fun n =>
  .error ("unexpected CBOR structure: expected " ++ expected ++ " but found " ++ n)

/-- `Reader::as_null`. -/
def asNull (d : Bytes) : Except String Unit :=
  (readAt d 0).bind fun b =>
  if b = 0xF6 then .ok () else unexpected "null" d

/-- `Reader::as_bool`. -/
def asBool (d : Bytes) : Except String Bool :=
  (readAt d 0).bind fun b =>
  if b = 0xF4 then .ok false
  else if b = 0xF5 then .ok true
  else unexpected "boolean" d

/-- `Reader::as_int`: majors 0 and 1 only, magnitude limited to the signed
64-bit range, major 1 mapping `v` to `-1 - v`. -/
def asInt (d : Bytes) : Except String Int :=
  (readAt d 0).bind fun initial =>
  let type := initial / 32
  if 2 ≤ type then unexpected "integer" d
  else
    (readIntlike d (initial % 32) 1).bind fun vi =>
    if 0x8000000000000000 ≤ vi.1 then
      .error "CBOR integer out of int64 range"
    else if type = 0 then .ok (vi.1 : Int)
    else .ok (-1 - (vi.1 : Int))

/-- `Reader::as_float`: the 0xFB tag followed by the eight bytes of the
IEEE-754 bit pattern, which the C++ code `memcpy`s into a `double`; the
model returns the bit pattern itself. -/
def asFloat (d : Bytes) : Except String Nat :=
  (readAt d 0).bind fun b =>
  if b ≠ 0xFB then unexpected "float" d
  else (readIntlike d 27 1).map Prod.fst

mutual

/-- `Reader::read_stringlike`: produce the content bytes of a string
object, definite or indefinite, and the offset just past it. -/
def readStringlike : Nat → Bytes → Nat → Except String (Bytes × Nat)
  | 0, _, _ => .error fuelMsg
  | fuel + 1, d, off =>
    (readAt d off).bind fun b =>
    let info := b % 32
    if info = 31 then strParts fuel d (off + 1)
    else
      (readIntlike d info (off + 1)).bind fun li =>
      if li.1 + li.2 > d.length then
        .error "Invalid CBOR: string read past end of slice"
      else .ok ((d.drop li.2).take li.1, li.2 + li.1)

/-- The indefinite-length loop of `read_stringlike`: concatenate chunk
contents until the break byte. -/
def strParts : Nat → Bytes → Nat → Except String (Bytes × Nat)
  | 0, _, _ => .error fuelMsg
  | fuel + 1, d, off =>
    (readAt d off).bind fun b =>
    if b = 0xFF then .ok ([], off + 1)
    else
      (readStringlike fuel d off).bind fun sp =>
      (strParts fuel d sp.2).map fun rest => (sp.1 ++ rest.1, rest.2)

end

/-- `Reader::as_string`: checks `is_string` (major 3) and reads the string
content. -/
def asString (fuel : Nat) (d : Bytes) : Except String Bytes :=
  (readAt d 0).bind fun b =>
  if b / 32 ≠ 3 then unexpected "UTF8 string" d
  else (readStringlike fuel d 0).map Prod.fst

/-- `Reader::as_binary`: checks `is_binary` (major 2) and reads the string
content. -/
def asBinary (fuel : Nat) (d : Bytes) : Except String Bytes :=
  (readAt d 0).bind fun b =>
  if b / 32 ≠ 2 then unexpected "binary string" d
  else (readStringlike fuel d 0).map Prod.fst

/-- Lexicographic comparison of byte strings, as `std::string`'s `<`
(`char_traits<char>::compare`, unsigned byte order). -/
def bytesLt : Bytes → Bytes → Bool
  | [], [] => false
  | [], _ :: _ => true
  | _ :: _, [] => false
  | a :: as, b :: bs => if a < b then true else if b < a then false else bytesLt as bs

/-- The `MapReader` of the support headers is `std::map<std::string,
Reader>`: an ordered map, here an association list strictly sorted by
`bytesLt`. -/
abbrev MapReader := List (Bytes × Bytes)

/-- `std::map::insert`: place the pair at its ordered position, keeping the
existing entry when the key is already bound (`insert` never overwrites). -/
def mapInsert (k : Bytes) (v : Bytes) : MapReader → MapReader
  | [] => [(k, v)]
  | (k1, v1) :: rest =>
    if bytesLt k k1 then (k, v) :: (k1, v1) :: rest
    else if bytesLt k1 k then (k1, v1) :: mapInsert k v rest
    else (k1, v1) :: rest

/-- `std::map::at`-style lookup on the model `MapReader`. -/
def mapAt (m : MapReader) (k : Bytes) : Option Bytes :=
  (m.find? fun kv => kv.1 = k).map Prod.snd

/-- The body of `Reader::as_array` after the header byte: collect the `n`
element subslices of a definite-length array (`read_array_item`: seek past
the element, then subslice its extent). -/
def arrItemsDef (fuel : Nat) (d : Bytes) : Nat → Nat → List Bytes →
    Except String (List Bytes)
  | _, 0, acc => .ok acc.reverse
  | off, n + 1, acc =>
    (checkAndSeek fuel d off).bind fun offNext =>
    (mkSlice d off (offNext - off)).bind fun s =>
    arrItemsDef fuel d offNext n (s :: acc)

/-- The indefinite-length loop of `Reader::as_array`. -/
def arrItemsIndef : Nat → Bytes → Nat → List Bytes → Except String (List Bytes)
  | 0, _, _, _ => .error fuelMsg
  | fuel + 1, d, off, acc =>
    (readAt d off).bind fun b =>
    if b = 0xFF then .ok acc.reverse
    else
      (checkAndSeek fuel d off).bind fun offNext =>
      (mkSlice d off (offNext - off)).bind fun s =>
      arrItemsIndef fuel d offNext (s :: acc)

/-- `Reader::as_array`: check `is_array` (major 4) and collect the element
subslices. -/
def asArray (fuel : Nat) (d : Bytes) : Except String (List Bytes) :=
  (readAt d 0).bind fun b =>
  if b / 32 ≠ 4 then unexpected "array" d
  else
    let info := b % 32
    if info = 31 then arrItemsIndef fuel d 1 []
    else (readIntlike d info 1).bind fun ni => arrItemsDef fuel d ni.2 ni.1 []

/-- `Reader::read_map_item`: seek past key and value, subslice both, read
the key as a UTF-8 string and `insert` the pair into the map. -/
def readMapItem (fuel : Nat) (d : Bytes) (off : Nat) (m : MapReader) :
    Except String (MapReader × Nat) :=
  (checkAndSeek fuel d off).bind fun dataStart =>
  (checkAndSeek fuel d dataStart).bind fun offNext =>
  (mkSlice d off (dataStart - off)).bind fun keySlice =>
  (mkSlice d dataStart (offNext - dataStart)).bind fun valSlice =>
  (asString fuel keySlice).map fun key =>
  (mapInsert key valSlice m, offNext)

/-- The definite-length loop of `Reader::as_map`. -/
def mapItemsDef (fuel : Nat) (d : Bytes) : Nat → Nat → MapReader →
    Except String MapReader
  | _, 0, m => .ok m
  | off, n + 1, m =>
    (readMapItem fuel d off m).bind fun mo =>
    mapItemsDef fuel d mo.2 n mo.1

/-- The indefinite-length loop of `Reader::as_map`. -/
def mapItemsIndef : Nat → Bytes → Nat → MapReader → Except String MapReader
  | 0, _, _, _ => .error fuelMsg
  | fuel + 1, d, off, m =>
    (readAt d off).bind fun b =>
    if b = 0xFF then .ok m
    else
      (readMapItem fuel d off m).bind fun mo =>
      mapItemsIndef fuel d mo.2 mo.1

/-- `Reader::as_map`: check `is_map` (major 5) and collect the key/value
subslices into a `MapReader`. -/
def asMap (fuel : Nat) (d : Bytes) : Except String MapReader :=
  (readAt d 0).bind fun b =>
  if b / 32 ≠ 5 then unexpected "map" d
  else
    let info := b % 32
    if info = 31 then mapItemsIndef fuel d 1 []
    else (readIntlike d info 1).bind fun ni => mapItemsDef fuel d ni.2 ni.1 []

mutual

/-- The CBOR values the claims quantify over: null, booleans, signed
64-bit integers, IEEE-754 doubles (as bit patterns), byte and UTF-8
strings, arrays, and string-keyed maps.  Maps are represented as their
canonical sorted entry list. -/
inductive Value where
  | vnull
  | vbool (b : Bool)
  | vint (i : Int)
  | vfloat (bits : Nat)
  | vstr (s : Bytes)
  | vbin (s : Bytes)
  | varr (vs : ValueList)
  | vmap (kvs : EntryList)
deriving DecidableEq

/-- A list of CBOR values (array elements). -/
inductive ValueList where
  | nil
  | cons (v : Value) (tl : ValueList)
deriving DecidableEq

/-- A list of key/value entries of a CBOR map. -/
inductive EntryList where
  | nil
  | cons (k : Bytes) (v : Value) (tl : EntryList)
deriving DecidableEq

end

mutual

/-- The bytes produced when a value is written through the writer API:
`write_null`/`write_bool`/`write_int`/`write_float`/`write_string`/
`write_binary` for the leaves, and for arrays and maps the indefinite
header written by the nested `ArrayWriter`/`MapWriter` constructor, the
member writes in order, and the break byte written by `close()`. -/
def encodeValue : Value → Bytes
  | .vnull => writeNull
  | .vbool b => writeBool b
  | .vint i => writeInt i
  | .vfloat bits => writeFloat bits
  | .vstr s => writeString s
  | .vbin s => writeBinary s
  | .varr vs => arrayHeader ++ encodeList vs ++ breakByte
  | .vmap kvs => mapHeader ++ encodeEntries kvs ++ breakByte

/-- The member bytes of an array: `append_*` per element, in order. -/
def encodeList : ValueList → Bytes
  | .nil => []
  | .cons v tl => encodeValue v ++ encodeList tl

/-- The member bytes of a map: per entry, `write_string(key)` followed by
the value bytes (the `MapWriter::append_*` pattern). -/
def encodeEntries : EntryList → Bytes
  | .nil => []
  | .cons k v tl => writeString k ++ encodeValue v ++ encodeEntries tl

end

mutual

/-- Reading a value back through the matching typed accessor: dispatch on
the initial byte exactly along the `is_*` predicates of the reader, use
the corresponding `as_*` accessor, and recurse into the subslices that
`as_array`/`as_map` return. -/
def readValue : Nat → Bytes → Except String Value
  | 0, _ => .error fuelMsg
  | fuel + 1, d =>
    (readAt d 0).bind fun b =>
    if b = 0xF6 then (asNull d).map fun _ => .vnull
    else if b = 0xF4 ∨ b = 0xF5 then (asBool d).map .vbool
    else if b / 32 ≤ 1 then (asInt d).map .vint
    else if b = 0xFB then (asFloat d).map .vfloat
    else if b / 32 = 3 then (asString (fuel + 1) d).map .vstr
    else if b / 32 = 2 then (asBinary (fuel + 1) d).map .vbin
    else if b / 32 = 4 then
      (asArray (fuel + 1) d).bind fun slices =>
      (readSlices fuel slices).map .varr
    else if b / 32 = 5 then
      (asMap (fuel + 1) d).bind fun m =>
      (readEntrySlices fuel m).map .vmap
    else unexpected "supported value" d

/-- Read each array element subslice back as a value. -/
def readSlices : Nat → List Bytes → Except String ValueList
  | _, [] => .ok .nil
  | fuel, s :: rest =>
    (readValue fuel s).bind fun v =>
    (readSlices fuel rest).map fun tl => .cons v tl

/-- Read each map value subslice back as a value, keeping the keys. -/
def readEntrySlices : Nat → MapReader → Except String EntryList
  | _, [] => .ok .nil
  | fuel, (k, s) :: rest =>
    (readValue fuel s).bind fun v =>
    (readEntrySlices fuel rest).map fun tl => .cons k v tl

end

/-- Top-level read-back of a byte string: internal fuel one more than the
byte count, which the round-trip theorem shows is always enough on writer
output. -/
def readTop (d : Bytes) : Except String Value :=
  readValue (d.length + 1) d

mutual

/-- The values covered by the round-trip claim, as representable in C++:
integers in the signed 64-bit range, float bit patterns below `2^64`,
strings made of bytes, map keys made of bytes and strictly ascending (the
canonical association-list form of a string-keyed map). -/
def wfValue : Value → Bool
  | .vnull => true
  | .vbool _ => true
  | .vint i => decide (-(2 ^ 63) ≤ i) && decide (i < 2 ^ 63)
  | .vfloat bits => decide (bits < 2 ^ 64)
  | .vstr s => s.all (· < 256) && decide (s.length < 2 ^ 63)
  | .vbin s => s.all (· < 256) && decide (s.length < 2 ^ 63)
  | .varr vs => wfList vs
  | .vmap kvs => wfEntries kvs

/-- Well-formedness of the elements of an array. -/
def wfList : ValueList → Bool
  | .nil => true
  | .cons v tl => wfValue v && wfList tl

/-- Well-formedness of map entries: byte keys, each key strictly below all
later keys, well-formed values. -/
def wfEntries : EntryList → Bool
  | .nil => true
  | .cons k v tl =>
    k.all (· < 256) && decide (k.length < 2 ^ 63) && wfValue v
      && keyLtAll k tl && wfEntries tl

/-- `k` is strictly `bytesLt`-below every key of the entry list. -/
def keyLtAll (k : Bytes) : EntryList → Bool
  | .nil => true
  | .cons k1 _ tl => bytesLt k k1 && keyLtAll k tl

end

mutual

/-- The per-element byte slices of an encoded array, as `as_array` returns
them. -/
def encSlices : ValueList → List Bytes
  | .nil => []
  | .cons v tl => encodeValue v :: encSlices tl

/-- The key/value-slice pairs of an encoded map, in entry order, as
`read_map_item` encounters them. -/
def entrySlices : EntryList → List (Bytes × Bytes)
  | .nil => []
  | .cons k v tl => (k, encodeValue v) :: entrySlices tl

end

/-- Every key of the map accumulator is `bytesLt`-below every key of the
remaining entries (the loop invariant of `as_map` on sorted writer
output). -/
def mrKeysBelow (m : MapReader) (kvs : EntryList) : Prop :=
  ∀ kv ∈ m, keyLtAll kv.1 kvs = true

/-- The fold of `Reader::as_map`'s entry loop: `insert` each encoded
entry, in encounter order, into the accumulated `std::map`. -/
def insertAll (m : MapReader) : EntryList → MapReader
  | .nil => m
  | .cons k v tl => insertAll (mapInsert k (encodeValue v) m) tl

/-- The value slice of the earliest entry with the given key, if any. -/
def firstVal : EntryList → Bytes → Option Bytes
  | .nil, _ => none
  | .cons k1 v tl, k => if k1 = k then some (encodeValue v) else firstVal tl k

/-- Well-formedness of map entries without the ordering requirement:
byte keys of representable length and well-formed values.  Duplicate and
out-of-order keys are allowed, as in any encoded CBOR map. -/
def wfEntriesDup : EntryList → Bool
  | .nil => true
  | .cons k v tl =>
    k.all (· < 256) && decide (k.length < 2 ^ 63) && wfValue v
      && wfEntriesDup tl

/-- A sample value exercising every supported kind: both `int64` extremes,
a float bit pattern, strings, and nesting of arrays and string-keyed
maps. -/
def sampleValue : Value :=
  .vmap (.cons [97] (.vint (-(2 ^ 63)))
    (.cons [98] (.varr
      (.cons .vnull
        (.cons (.vbool true)
          (.cons (.vfloat 0x400921FB54442EEA)
            (.cons (.vstr [104, 105])
              (.cons (.vbin [0, 255])
                (.cons (.vmap (.cons [107] (.vint (2 ^ 63 - 1)) .nil))
                  .nil)))))))
      .nil))

/-- Top-level reader construction with the internal fuel `length + 1`; the
round-trip theorem shows this fuel is always sufficient on writer
output. -/
def constructReader (d : Bytes) : Except String Unit :=
  mkReader (d.length + 1) d

/-- The state of a `cbor::Writer`: the bytes written to the output stream
so far, the stack of active structure-writer identifiers (top first), and
the identifier counter (initialized to 1). -/
structure Writer where
  output : Bytes
  stack : List Nat
  idCounter : Nat
deriving DecidableEq

/-- `Writer::Writer(std::ostream&)`. -/
def Writer.fresh : Writer := ⟨[], [], 1⟩

/-- A `StructureWriter` handle, identified by the id it drew from the
writer's counter. -/
structure SWriter where
  id : Nat
deriving DecidableEq

/-- The `StructureWriter(Writer&)` constructor: draw the next id, push it
onto the writer's stack and increment the counter. -/
def pushHandle (w : Writer) : SWriter × Writer :=
  (⟨w.idCounter⟩, ⟨w.output, w.idCounter :: w.stack, w.idCounter + 1⟩)

/-- `StructureWriter::stream()`: succeed only when this handle is the
active (innermost) writer, i.e. the top of the stack. -/
def SWriter.stream (h : SWriter) (w : Writer) : Except String Unit :=
  if w.stack.headD 0 = h.id ∧ w.stack ≠ [] then .ok ()
  else .error "Attempt to write to CBOR object using inactive writer"

/-- The shared shape of all `write_*`/`append_*` member writes: acquire
the stream through the active-writer check, then write the bytes. -/
def SWriter.writeBytes (h : SWriter) (w : Writer) (bs : Bytes) :
    Except String Writer :=
  (h.stream w).map fun _ => ⟨w.output ++ bs, w.stack, w.idCounter⟩

/-- `StructureWriter::close()`: write the break byte and pop this handle
off the stack. -/
def SWriter.close (h : SWriter) (w : Writer) : Except String Writer :=
  (h.stream w).map fun _ => ⟨w.output ++ breakByte, w.stack.tail, w.idCounter⟩

/-- `StructureWriter::write_array()`: check the stream, construct the
nested `ArrayWriter` (pushing its handle) whose constructor writes the
indefinite-array header. -/
def SWriter.writeArray (h : SWriter) (w : Writer) :
    Except String (SWriter × Writer) :=
  (h.stream w).bind fun _ =>
  let hw := pushHandle w
  (hw.1.writeBytes hw.2 arrayHeader).map fun w2 => (hw.1, w2)

/-- `StructureWriter::write_map()`: check the stream, construct the nested
`MapWriter` (pushing its handle) whose constructor writes the
indefinite-map header. -/
def SWriter.writeMap (h : SWriter) (w : Writer) :
    Except String (SWriter × Writer) :=
  (h.stream w).bind fun _ =>
  let hw := pushHandle w
  (hw.1.writeBytes hw.2 mapHeader).map fun w2 => (hw.1, w2)

/-- `Writer::start()`: only when no writer is active, construct the
toplevel `MapWriter`. -/
def Writer.start (w : Writer) : Except String (SWriter × Writer) :=
  if w.stack ≠ [] then
    .error "Writing of this CBOR object has already started"
  else
    let hw := pushHandle w
    (hw.1.writeBytes hw.2 mapHeader).map fun w2 => (hw.1, w2)

end Cbor

namespace Base

/-- The two kinds of C++ exceptions that matter to `is_well_formed`:
`NotWellFormed` (a `tree::base` validation failure) and everything
else. -/
inductive TreeError where
  | notWellFormed (msg : String)
  | other (msg : String)
deriving DecidableEq

/-- The `PointerMap` of `tree-base.hpp`: node identity (a raw address,
modelled as a `Nat`) to sequence number, in registration order.  The C++
container is `std::map<const void*, size_t>`; registration order is kept
here to speak about the order of `add` calls, and `size` is the entry
count. -/
structure PointerMap where
  entries : List (Nat × Nat)
deriving DecidableEq

/-- The empty `PointerMap{}`. -/
def PointerMap.empty : PointerMap := ⟨[]⟩

/-- Whether an identity is already registered. -/
def PointerMap.contains (m : PointerMap) (ptr : Nat) : Bool :=
  m.entries.any fun e => e.1 = ptr

/-- `PointerMap::add_raw` (src/tree-base.cpp): take the next sequence
number `map.size()`, fail with `NotWellFormed` when the identity is
already present, otherwise register it. -/
def PointerMap.add_raw (m : PointerMap) (ptr : Nat) (name : String) :
    Except TreeError (Nat × PointerMap) :=
  let sequence := m.entries.length
  if m.contains ptr then
    .error (.notWellFormed
      ("Duplicate node of type " ++ name ++ "at address " ++ toString ptr
        ++ " found in tree"))
  else .ok (sequence, ⟨m.entries ++ [(ptr, sequence)]⟩)

/-- `PointerMap::get_raw` (src/tree-base.cpp): look an identity up, fail
with `NotWellFormed` when it was never registered. -/
def PointerMap.get_raw (m : PointerMap) (ptr : Nat) (name : String) :
    Except TreeError Nat :=
  match m.entries.find? fun e => e.1 = ptr with
  | some e => .ok e.2
  | none =>
    .error (.notWellFormed
      ("Link to node of type " ++ name ++ "at address " ++ toString ptr
        ++ " not found in tree"))

/-- Registering a whole visit sequence with `add_raw`, one identity after
another (the shape of a `find_reachable` pass). -/
def PointerMap.addAll (m : PointerMap) (ptrs : List Nat) (name : String) :
    Except TreeError PointerMap :=
  match ptrs with
  | [] => .ok m
  | p :: rest =>
    (m.add_raw p name).bind fun sm => sm.2.addAll rest name

/-- A `Completable` node, abstracted over the generated `find_reachable`
and `check_complete` passes (their bodies are generated per node type;
`Completable::check_well_formed` and `is_well_formed` only compose
them). -/
structure Completable where
  find_reachable : PointerMap → Except TreeError PointerMap
  check_complete : PointerMap → Except TreeError Unit

/-- `Completable::check_well_formed`: a `find_reachable` pass over a fresh
`PointerMap` followed by a `check_complete` pass; any exception
propagates. -/
def Completable.check_well_formed (c : Completable) : Except TreeError Unit :=
  (c.find_reachable PointerMap.empty).bind fun m => c.check_complete m

/-- `Completable::is_well_formed`: run `check_well_formed`; report success
as `true`; catch `NotWellFormed` as `false`; let every other exception
propagate (only `catch (NotWellFormed&)` is present in the source). -/
def Completable.is_well_formed (c : Completable) : Except TreeError Bool :=
  match c.check_well_formed with
  | .ok _ => .ok true
  | .error (.notWellFormed _) => .ok false
  | .error e => .error e

/-- The identities visited by a `find_reachable` pass, numbered in visit
order starting at `start`. -/
def numberFrom (start : Nat) : List Nat → List (Nat × Nat)
  | [] => []
  | p :: rest => (p, start) :: numberFrom (start + 1) rest

/-- A concrete `Completable` whose completeness pass reports a
`NotWellFormed` failure. -/
def sampleIncomplete : Completable :=
  ⟨fun m => .ok m, fun _ => .error (.notWellFormed "incomplete")⟩

/-- A concrete `Completable` whose completeness pass throws an unrelated
exception. -/
def sampleThrowing : Completable :=
  ⟨fun m => .ok m, fun _ => .error (.other "bad_alloc")⟩

end Base

namespace Gen

/-- A field of a generator `Node`, reduced to what `Node::all_fields`
inspects: its name (plus a payload id so that distinct fields with equal
contents stay distinguishable). -/
structure GField where
  name : String
  payload : Nat
deriving DecidableEq

/-- A generator `Node` as far as field resolution is concerned: declared
fields, the `reorder` declaration, and the optional parent node. -/
inductive GNode where
  | mk (fields : List GField) (order : List String) (parent : Option GNode)

/-- Remove the first field with the given name, as the erase-on-match scan
inside `Node::all_fields`. -/
def extractFirst (name : String) : List GField → Option (GField × List GField)
  | [] => none
  | f :: rest =>
    if f.name = name then some (f, rest)
    else (extractFirst name rest).map fun fr => (fr.1, f :: fr.2)

/-- The reorder loop of `Node::all_fields`: move each named field, in
order, from `children` to `reordered`; fail on a name matching no
remaining field; append the leftover children afterwards. -/
def reorderFields (order : List String) (children reordered : List GField) :
    Except String (List GField) :=
  match order with
  | [] => .ok (reordered ++ children)
  | name :: rest =>
    match extractFirst name children with
    | none => .error ("Unknown field in field order: " ++ name)
    | some fr => reorderFields rest fr.2 (reordered ++ [fr.1])

/-- `Node::all_fields` (generator/tree-gen.cpp): own fields, then the
parent's resolved fields, then the `reorder` pass when an order is
declared. -/
def allFields : GNode → Except String (List GField)
  | .mk fields order parent =>
    let base : Except String (List GField) :=
      match parent with
      | none => .ok fields
      | some p => (allFields p).map fun pf => fields ++ pf
    base.bind fun children =>
      if order.isEmpty then .ok children
      else reorderFields order children []

/-- A serialized CBOR value at the granularity the emitted `serialize`
bodies work with: maps with string keys, integers, strings, null. -/
inductive SV where
  | map (entries : List (String × SV))
  | int (i : Int)
  | str (s : String)
  | nullv

mutual

/-- A model tree node for the generated `serialize` methods: the node's
identity (the C++ address / Python `id`), the leaf type's title-case name,
and its fields in resolved order. -/
inductive MNode where
  | mk (ident : Nat) (title : String) (fields : List MField)

/-- A named field of a model node. -/
inductive MField where
  | mk (name : String) (edge : MEdge)

/-- The edge kinds the serialization claims distinguish: a populated
owning edge (One/Maybe), an empty optional owning edge, a link edge
(Link/OptLink, with its target when populated), and a primitive with an
opaque serialized payload. -/
inductive MEdge where
  | child (n : MNode)
  | childEmpty
  | link (target : Option MNode)
  | prim (payload : List (String × SV))

end

/-- Identity of a model node. -/
def MNode.ident : MNode → Nat
  | .mk i _ _ => i

/-- Title-case leaf name of a model node. -/
def MNode.title : MNode → String
  | .mk _ t _ => t

/-- Fields of a model node. -/
def MNode.fields : MNode → List MField
  | .mk _ _ fs => fs

mutual

/-- The node map emitted for a node by the C++ generated
`serialize(map, ids)` body (generator/tree-gen-cpp.cpp, leaf branch):
`map.append_string("@t", <TitleCaseName>)`, then one submap per field in
resolved order filled by the field's edge serializer, then
`serialize_annotations(map)` (empty here; annotation payloads do not
affect the claimed keys). -/
def cppNodeSer (ids : Nat → Nat) : MNode → List (String × SV)
  | .mk _ title fields =>
    ("@t", SV.str title) :: cppFieldsSer ids fields

/-- The per-field submap entries of the C++ generated `serialize`. -/
def cppFieldsSer (ids : Nat → Nat) : List MField → List (String × SV)
  | [] => []
  | .mk name edge :: rest =>
    (name, SV.map (cppEdgeSer ids edge)) :: cppFieldsSer ids rest

/-- Modelled from the spec: the edge-wrapper `serialize` bodies live in
`include/tree-base.hpp`, which is not part of the provided sources (only
its callers are).  Per the spec's binary-format section, a populated
owning edge writes the child's node map carrying `@i` (the child's
sequence number) next to the `@t` written by the child's own `serialize`;
an empty optional edge writes an empty submap; a link edge writes
`"@l": <sequence number of the target>` (null when the optional link is
empty). -/
def cppEdgeSer (ids : Nat → Nat) : MEdge → List (String × SV)
  | .child n => ("@i", SV.int (ids n.ident)) :: cppNodeSer ids n
  | .childEmpty => []
  | .link (some t) => [("@l", SV.int (ids t.ident))]
  | .link none => [("@l", SV.nullv)]
  | .prim payload => payload

end

/-- The top-level serialized tree on the C++ side: the root node's map,
carrying the root's `@i` (modelled from the spec, see `cppEdgeSer`) and
the entries of the root's own `serialize`. -/
def cppTreeSer (ids : Nat → Nat) (root : MNode) : List (String × SV) :=
  ("@i", SV.int (ids root.ident)) :: cppNodeSer ids root

mutual

/-- The node maps produced while serializing a tree on the C++ side: the
map written for the node itself, and those of every owned descendant. -/
def cppNodeMaps (ids : Nat → Nat) : MNode → List (List (String × SV))
  | .mk i t fields =>
    (("@i", SV.int (ids i)) :: cppNodeSer ids (.mk i t fields))
      :: cppFieldMaps ids fields

/-- The node maps contributed by a field list on the C++ side. -/
def cppFieldMaps (ids : Nat → Nat) : List MField → List (List (String × SV))
  | [] => []
  | .mk _ edge :: rest =>
    (match edge with
      | .child n => cppNodeMaps ids n
      | _ => []) ++ cppFieldMaps ids rest

end

mutual

/-- The dictionary produced for a node by the Python generated
`_serialize(self, id_map)` body (generator/tree-gen-python.cpp):
`cbor = ('@i': id_map[id(self)], '@t': <TitleCaseName>)` followed by one
entry per field in resolved order. -/
def pyNodeSer (ids : Nat → Nat) : MNode → List (String × SV)
  | .mk ident title fields =>
    ("@i", SV.int (ids ident)) :: ("@t", SV.str title)
      :: pyFieldsSer ids ident fields

/-- The per-field entries of the Python generated `_serialize`; `selfId`
is the identity of the node being serialized (`id(self)` in the emitted
code). -/
def pyFieldsSer (ids : Nat → Nat) (selfId : Nat) : List MField → List (String × SV)
  | [] => []
  | .mk name edge :: rest =>
    (name, SV.map (pyEdgeSer ids selfId edge)) :: pyFieldsSer ids selfId rest

/-- The field dictionary written by the Python generated `_serialize` for
one edge.  For a link edge the emitted code writes
`field['@l'] = id_map[id(self)]` — the sequence number of the node that
CONTAINS the link, not of the link's target. -/
def pyEdgeSer (ids : Nat → Nat) (selfId : Nat) : MEdge → List (String × SV)
  | .child n => pyNodeSer ids n
  | .childEmpty => [("@t", SV.nullv)]
  | .link (some _) => [("@l", SV.int (ids selfId))]
  | .link none => [("@l", SV.nullv)]
  | .prim payload => payload

end

mutual

/-- The node dictionaries produced while serializing a tree on the Python
side. -/
def pyNodeMaps (ids : Nat → Nat) : MNode → List (List (String × SV))
  | .mk i t fields =>
    pyNodeSer ids (.mk i t fields) :: pyFieldMaps ids fields

/-- The node dictionaries contributed by a field list on the Python
side. -/
def pyFieldMaps (ids : Nat → Nat) : List MField → List (List (String × SV))
  | [] => []
  | .mk _ edge :: rest =>
    (match edge with
      | .child n => pyNodeMaps ids n
      | _ => []) ++ pyFieldMaps ids rest

end

/-- Whether a serialized map carries an entry with the given key. -/
def hasKey (key : String) (m : List (String × SV)) : Bool :=
  m.any fun e => e.1 = key

/-- The `IdentifierMap` of the C++ deserialization support
(src: tree-base implementation): constructed nodes by sequence number and
scheduled link fix-ups (link slot identity, target sequence number). -/
structure IdentifierMap where
  nodes : List (Nat × Nat)
  links : List (Nat × Nat)
deriving DecidableEq

/-- `IdentifierMap::register_node`. -/
def IdentifierMap.register_node (m : IdentifierMap) (identifier node : Nat) :
    IdentifierMap :=
  ⟨m.nodes ++ [(identifier, node)], m.links⟩

/-- `IdentifierMap::register_link`: links are only scheduled, not yet
resolved. -/
def IdentifierMap.register_link (m : IdentifierMap) (slot identifier : Nat) :
    IdentifierMap :=
  ⟨m.nodes, m.links ++ [(slot, identifier)]⟩

/-- `IdentifierMap::restore_links`: after all nodes exist, point every
scheduled link slot at the node registered under its target sequence
number (`nodes.at(identifier)`). -/
def IdentifierMap.restore_links (m : IdentifierMap) :
    List (Nat × Option Nat) :=
  m.links.map fun sl => (sl.1, (m.nodes.find? fun e => e.1 = sl.2).map Prod.snd)

/-- A sample tree: a root owning one child, the child holding a link back
to the root and a primitive field. -/
def sampleNode : MNode :=
  .mk 0 "Root" [.mk "kid" (.child (.mk 1 "Leaf"
    [.mk "lnk" (.link (some (.mk 0 "Root" []))),
     .mk "val" (.prim [("x", SV.int 42)])]))]

end Gen

/-- Bind on a success result. -/
@[simp] theorem okBind {ε α β : Type} (a : α) (f : α → Except ε β) :
    (Except.ok a).bind f = f a := rfl

/-- Bind on an error result. -/
@[simp] theorem errorBind {ε α β : Type} (e : ε) (f : α → Except ε β) :
    (Except.error e : Except ε α).bind f = .error e := rfl

/-- Map on a success result. -/
@[simp] theorem okMap {ε α β : Type} (a : α) (f : α → β) :
    (Except.ok a : Except ε α).map f = .ok (f a) := rfl

/-- Map on an error result. -/
@[simp] theorem errorMap {ε α β : Type} (e : ε) (f : α → β) :
    (Except.error e : Except ε α).map f = .error e := rfl

namespace Cbor

/-- Reading inside the middle part of a concatenation. -/
theorem readAt_append (pre mid post : Bytes) (n : Nat)
    (h1 : pre.length ≤ n) (h2 : n < pre.length + mid.length) :
    readAt (pre ++ mid ++ post) n = .ok (mid.getD (n - pre.length) 0) := by
  have hlen : n < (pre ++ mid ++ post).length := by
    simp only [List.length_append]; omega
  unfold readAt
  rw [if_pos hlen]
  congr 1
  rw [List.getD_eq_getElem?_getD, List.getD_eq_getElem?_getD, List.append_assoc,
    List.getElem?_append_right h1, List.getElem?_append_left (by omega)]

/-- `getD` at index zero is `headD`. -/
theorem getD_zero_headD (l : Bytes) : l.getD 0 0 = l.headD 0 := by
  cases l <;> rfl

/-- Reading the first byte of the middle part of a concatenation. -/
theorem readAt_append_first (pre mid post : Bytes) (b : Nat)
    (h : mid.headD 0 = b) (hne : mid ≠ []) :
    readAt (pre ++ mid ++ post) pre.length = .ok b := by
  rw [readAt_append pre mid post pre.length le_rfl
    (by cases mid with | nil => exact absurd rfl hne | cons x xs => simp)]
  simp only [Nat.sub_self, getD_zero_headD, h]

/-- Reading at explicit relative position `k` inside the middle part of a
concatenation. -/
theorem readAt_append_at (pre mid post : Bytes) (k : Nat) (hk : k < mid.length)
    (n : Nat) (hn : n = pre.length + k) :
    readAt (pre ++ mid ++ post) n = .ok (mid.getD k 0) := by
  rw [readAt_append pre mid post n (by omega) (by omega)]
  have : n - pre.length = k := by omega
  rw [this]

/-- The big-endian rendering of `n` bytes is `n` bytes long. -/
theorem beBytes_length (n value : Nat) : (beBytes n value).length = n := by
  induction n generalizing value with
  | zero => rfl
  | succ n ih => simp [beBytes, ih]

/-- `intHeader` emits 1, 2, 3, 5 or 9 bytes according to the magnitude
thresholds of `write_int`. -/
theorem intHeader_length (major value : Nat) :
    (intHeader major value).length =
      if value < 24 then 1
      else if value < 2 ^ 8 then 2
      else if value < 2 ^ 16 then 3
      else if value < 2 ^ 32 then 5
      else 9 := by
  unfold intHeader
  split_ifs <;> simp [beBytes_length] <;> omega

/-- `read_intlike` recovers the value encoded by `write_int`'s header:
reading at the byte after the initial byte, with the additional-info field
taken from the initial byte, yields the encoded magnitude and the offset
just past the header. -/
theorem readIntlike_intHeader (major value : Nat) (pre post : Bytes)
    (hm : major < 8) (hv : value < 2 ^ 64) :
    readIntlike (pre ++ intHeader major value ++ post)
      ((intHeader major value).headD 0 % 32) (pre.length + 1) =
    .ok (value, pre.length + (intHeader major value).length) := by
  unfold intHeader
  split_ifs with h1 h2 h3 h4
  · have hinfo : (major * 32 + value) % 256 % 32 = value := by omega
    simp only [List.headD_cons, hinfo]
    unfold readIntlike
    simp [h1]
  · have hinfo : (major * 32 + 24) % 256 % 32 = 24 := by omega
    simp only [beBytes, List.headD_cons, hinfo]
    unfold readIntlike
    rw [if_neg (by omega)]
    rw [readAt_append_at pre _ post 1 (by simp) (pre.length + 1) (by omega)]
    simp only [okBind]
    rw [if_pos (by norm_num)]
    simp only [Nat.add_sub_cancel_left, List.getD, List.length_cons,
      List.length_nil, Nat.shiftRight_eq_div_pow, Except.ok.injEq,
      Prod.mk.injEq]
    norm_num
    omega
  · have hinfo : (major * 32 + 25) % 256 % 32 = 25 := by omega
    simp only [beBytes, List.headD_cons, hinfo]
    unfold readIntlike
    rw [if_neg (by omega)]
    rw [readAt_append_at pre _ post 1 (by simp) (pre.length + 1) (by omega)]
    simp only [okBind]
    rw [if_neg (by norm_num)]
    rw [readAt_append_at pre _ post 2 (by simp) (pre.length + 1 + 1) (by omega)]
    simp only [okBind]
    rw [if_pos (by norm_num)]
    simp only [Nat.add_sub_cancel_left, List.getD, List.length_cons,
      List.length_nil, Nat.shiftRight_eq_div_pow, Except.ok.injEq,
      Prod.mk.injEq]
    norm_num
    omega
  · have hinfo : (major * 32 + 26) % 256 % 32 = 26 := by omega
    simp only [beBytes, List.headD_cons, hinfo]
    unfold readIntlike
    rw [if_neg (by omega)]
    rw [readAt_append_at pre _ post 1 (by simp) (pre.length + 1) (by omega)]
    simp only [okBind]
    rw [if_neg (by norm_num)]
    rw [readAt_append_at pre _ post 2 (by simp) (pre.length + 1 + 1) (by omega)]
    simp only [okBind]
    rw [if_neg (by norm_num)]
    rw [readAt_append_at pre _ post 3 (by simp) (pre.length + 1 + 2) (by omega)]
    simp only [okBind]
    rw [readAt_append_at pre _ post 4 (by simp) (pre.length + 1 + 3) (by omega)]
    simp only [okBind]
    rw [if_pos (by norm_num)]
    simp only [Nat.add_sub_cancel_left, List.getD, List.length_cons,
      List.length_nil, Nat.shiftRight_eq_div_pow, Except.ok.injEq,
      Prod.mk.injEq]
    norm_num
    omega
  · have hinfo : (major * 32 + 27) % 256 % 32 = 27 := by omega
    simp only [beBytes, List.headD_cons, hinfo]
    unfold readIntlike
    rw [if_neg (by omega)]
    rw [readAt_append_at pre _ post 1 (by simp) (pre.length + 1) (by omega)]
    simp only [okBind]
    rw [if_neg (by norm_num)]
    rw [readAt_append_at pre _ post 2 (by simp) (pre.length + 1 + 1) (by omega)]
    simp only [okBind]
    rw [if_neg (by norm_num)]
    rw [readAt_append_at pre _ post 3 (by simp) (pre.length + 1 + 2) (by omega)]
    simp only [okBind]
    rw [readAt_append_at pre _ post 4 (by simp) (pre.length + 1 + 3) (by omega)]
    simp only [okBind]
    rw [if_neg (by norm_num)]
    rw [readAt_append_at pre _ post 5 (by simp) (pre.length + 1 + 4) (by omega)]
    simp only [okBind]
    rw [readAt_append_at pre _ post 6 (by simp) (pre.length + 1 + 5) (by omega)]
    simp only [okBind]
    rw [readAt_append_at pre _ post 7 (by simp) (pre.length + 1 + 6) (by omega)]
    simp only [okBind]
    rw [readAt_append_at pre _ post 8 (by simp) (pre.length + 1 + 7) (by omega)]
    simp only [okBind]
    rw [if_pos (by norm_num)]
    simp only [Nat.add_sub_cancel_left, List.getD, List.length_cons,
      List.length_nil, Nat.shiftRight_eq_div_pow, Except.ok.injEq,
      Prod.mk.injEq]
    norm_num
    omega

/-- `intHeader` never produces an empty byte string. -/
theorem intHeader_ne_nil (major value : Nat) : intHeader major value ≠ [] := by
  unfold intHeader
  split_ifs <;> simp

/-- The initial byte of `intHeader` is the major type shifted left by five
plus the additional-information code. -/
theorem intHeader_headD (major value : Nat) (hm : major < 8) :
    (intHeader major value).headD 0 = major * 32 + intCode value := by
  unfold intHeader intCode
  have h27 : intCode value < 28 := by unfold intCode; split_ifs <;> omega
  split_ifs <;> simp only [List.headD_cons] <;> omega

/-- The additional-information code is below 28 (in particular not 31). -/
theorem intCode_lt (value : Nat) : intCode value < 28 := by
  unfold intCode
  split_ifs <;> omega

/-- `write_string` is the major-3 header followed by the data. -/
theorem writeString_eq (s : Bytes) :
    writeString s = intHeader 3 s.length ++ s := by
  unfold writeString writeIntMajor
  rw [if_neg (by omega)]
  simp

/-- `write_binary` is the major-2 header followed by the data. -/
theorem writeBinary_eq (s : Bytes) :
    writeBinary s = intHeader 2 s.length ++ s := by
  unfold writeBinary writeIntMajor
  rw [if_neg (by omega)]
  simp

/-- `check_and_seek` on the output of `write_int` for one of the string
majors 2 or 3 followed by the string data: seek to just past the data. -/
theorem seek_defstr (major : Nat) (s pre post : Bytes) (fuel : Nat)
    (hm : 2 ≤ major) (hm2 : major ≤ 3) (hlen : s.length < 2 ^ 64)
    (hfuel : 1 ≤ fuel) :
    checkAndSeek fuel (pre ++ (intHeader major s.length ++ s) ++ post)
      pre.length =
    .ok (pre.length + (intHeader major s.length ++ s).length) := by
  obtain ⟨f, rfl⟩ : ∃ f, fuel = f + 1 := ⟨fuel - 1, by omega⟩
  have hre : pre ++ (intHeader major s.length ++ s) ++ post
      = pre ++ intHeader major s.length ++ (s ++ post) := by simp
  rw [hre]
  simp only [checkAndSeek]
  rw [readAt_append_first pre _ _ _
    (intHeader_headD major s.length (by omega)) (intHeader_ne_nil _ _)]
  simp only [okBind]
  have hc := intCode_lt s.length
  rw [if_neg (by omega), if_pos (by omega), if_neg (by omega)]
  have hinfo : (major * 32 + intCode s.length) % 32
      = (intHeader major s.length).headD 0 % 32 := by
    rw [intHeader_headD major s.length (by omega)]
  rw [hinfo, readIntlike_intHeader major s.length pre (s ++ post) (by omega)
    (by omega)]
  simp only [okBind, List.length_append]
  congr 1
  omega

/-- `check_and_seek` on the output of `write_int`: seek to just past the
integer. -/
theorem seek_int (i : Int) (pre post : Bytes) (fuel : Nat)
    (hlo : -(2 ^ 63) ≤ i) (hhi : i < 2 ^ 63) (hfuel : 1 ≤ fuel) :
    checkAndSeek fuel (pre ++ writeInt i ++ post) pre.length =
    .ok (pre.length + (writeInt i).length) := by
  obtain ⟨f, rfl⟩ : ∃ f, fuel = f + 1 := ⟨fuel - 1, by omega⟩
  have hmain : ∀ major value : Nat, major ≤ 1 → value < 2 ^ 64 →
      checkAndSeek (f + 1) (pre ++ intHeader major value ++ post) pre.length =
      .ok (pre.length + (intHeader major value).length) := by
    intro major value hm hv
    simp only [checkAndSeek]
    rw [readAt_append_first pre _ _ _
      (intHeader_headD major value (by omega)) (intHeader_ne_nil _ _)]
    simp only [okBind]
    have hc := intCode_lt value
    rw [if_pos (by omega)]
    have hinfo : (major * 32 + intCode value) % 32
        = (intHeader major value).headD 0 % 32 := by
      rw [intHeader_headD major value (by omega)]
    rw [hinfo, readIntlike_intHeader major value pre post (by omega) hv]
    simp
  unfold writeInt writeIntMajor
  split_ifs with hneg
  · exact hmain 1 (-1 - i).toNat (by omega) (by omega)
  · exact hmain 0 i.toNat (by omega) (by omega)

/-- `check_and_seek` on a one-byte simple value (false, true, null). -/
theorem seek_simple (b : Nat) (pre post : Bytes) (fuel : Nat)
    (hb : b = 0xF4 ∨ b = 0xF5 ∨ b = 0xF6) (hfuel : 1 ≤ fuel) :
    checkAndSeek fuel (pre ++ [b] ++ post) pre.length = .ok (pre.length + 1) := by
  obtain ⟨f, rfl⟩ : ∃ f, fuel = f + 1 := ⟨fuel - 1, by omega⟩
  simp only [checkAndSeek]
  rw [readAt_append_first pre [b] post b rfl (by simp)]
  simp only [okBind]
  rcases hb with rfl | rfl | rfl <;> norm_num

/-- `check_and_seek` on the output of `write_float`: seek past the nine
bytes. -/
theorem seek_float (bits : Nat) (pre post : Bytes) (fuel : Nat)
    (hfuel : 1 ≤ fuel) :
    checkAndSeek fuel (pre ++ writeFloat bits ++ post) pre.length =
      .ok (pre.length + (writeFloat bits).length) := by
  obtain ⟨f, rfl⟩ : ∃ f, fuel = f + 1 := ⟨fuel - 1, by omega⟩
  simp only [checkAndSeek]
  rw [readAt_append_first pre (writeFloat bits) post 0xFB rfl (by simp [writeFloat])]
  simp only [okBind]
  norm_num [writeFloat, beBytes_length]

/-- The head of an append with a non-empty left part. -/
theorem headD_append_left (l1 l2 : Bytes) (h : l1 ≠ []) :
    (l1 ++ l2).headD 0 = l1.headD 0 := by
  cases l1 with
  | nil => exact absurd rfl h
  | cons x xs => rfl

/-- Writer output is never empty. -/
theorem encodeValue_ne_nil (v : Value) : encodeValue v ≠ [] := by
  cases v <;>
    simp [encodeValue, writeNull, writeBool, writeFloat, writeString_eq,
      writeBinary_eq, writeInt, writeIntMajor, arrayHeader, mapHeader,
      breakByte, intHeader_ne_nil]
  · split_ifs <;> exact intHeader_ne_nil _ _

/-- Writer output has a length of at least one. -/
theorem encodeValue_length_pos (v : Value) : 1 ≤ (encodeValue v).length := by
  have := encodeValue_ne_nil v
  cases h : encodeValue v with
  | nil => exact absurd h this
  | cons x xs => simp

/-- The initial byte of writer output is neither a break byte nor a
semantic-tag initial byte. -/
theorem encodeValue_headD (v : Value) :
    (encodeValue v).headD 0 ≠ 0xFF ∧ (encodeValue v).headD 0 / 32 ≠ 6 := by
  cases v with
  | vint i =>
    simp only [encodeValue, writeInt, writeIntMajor]
    split_ifs with h
    · rw [intHeader_headD 1 _ (by omega)]
      have := intCode_lt (-1 - i).toNat
      omega
    · rw [intHeader_headD 0 _ (by omega)]
      have := intCode_lt i.toNat
      omega
  | vstr s =>
    simp only [encodeValue, writeString_eq]
    rw [headD_append_left _ _ (intHeader_ne_nil 3 s.length),
      intHeader_headD 3 _ (by omega)]
    have := intCode_lt s.length
    omega
  | vbin s =>
    simp only [encodeValue, writeBinary_eq]
    rw [headD_append_left _ _ (intHeader_ne_nil 2 s.length),
      intHeader_headD 2 _ (by omega)]
    have := intCode_lt s.length
    omega
  | vbool b => cases b <;> simp [encodeValue, writeBool]
  | _ =>
    simp [encodeValue, writeNull, writeFloat, arrayHeader, mapHeader, breakByte]

/-- `write_string` output is never empty. -/
theorem writeString_ne_nil (s : Bytes) : writeString s ≠ [] := by
  rw [writeString_eq]
  intro h
  exact intHeader_ne_nil 3 s.length (List.append_eq_nil.mp h).1

/-- `write_string` output has a length of at least one. -/
theorem writeString_length_pos (s : Bytes) : 1 ≤ (writeString s).length := by
  have := writeString_ne_nil s
  cases h : writeString s with
  | nil => exact absurd h this
  | cons x xs => simp

/-- The initial byte of `write_string` output. -/
theorem writeString_headD (s : Bytes) :
    (writeString s).headD 0 = 3 * 32 + intCode s.length := by
  rw [writeString_eq, headD_append_left _ _ (intHeader_ne_nil _ _),
    intHeader_headD 3 _ (by omega)]

mutual

/-- The structural walk of the reader seeks exactly past the bytes the
writer emitted for a value, wherever they sit in the input. -/
theorem seek_encode (v : Value) (pre post : Bytes) (fuel : Nat)
    (hwf : wfValue v = true) (hfuel : (encodeValue v).length < fuel) :
    checkAndSeek fuel (pre ++ encodeValue v ++ post) pre.length =
      .ok (pre.length + (encodeValue v).length) := by
  cases v with
  | vnull =>
    simp only [encodeValue, writeNull] at hfuel ⊢
    rw [seek_simple 0xF6 pre post fuel (by norm_num) (by omega)]
    simp
  | vbool b =>
    cases b with
    | false =>
      have he : encodeValue (.vbool false) = [0xF4] := rfl
      rw [he] at hfuel ⊢
      rw [seek_simple 0xF4 pre post fuel (by norm_num)
        (by simp at hfuel; omega)]
      simp
    | true =>
      have he : encodeValue (.vbool true) = [0xF5] := rfl
      rw [he] at hfuel ⊢
      rw [seek_simple 0xF5 pre post fuel (by norm_num)
        (by simp at hfuel; omega)]
      simp
  | vint i =>
    simp only [wfValue, Bool.and_eq_true, decide_eq_true_eq] at hwf
    simp only [encodeValue] at hfuel ⊢
    exact seek_int i pre post fuel (by omega) (by omega) (by omega)
  | vfloat bits =>
    simp only [encodeValue] at hfuel ⊢
    exact seek_float bits pre post fuel (by omega)
  | vstr str =>
    simp only [wfValue, Bool.and_eq_true, decide_eq_true_eq] at hwf
    simp only [encodeValue, writeString_eq] at hfuel ⊢
    exact seek_defstr 3 str pre post fuel (by omega) (by omega) (by omega)
      (by omega)
  | vbin str =>
    simp only [wfValue, Bool.and_eq_true, decide_eq_true_eq] at hwf
    simp only [encodeValue, writeBinary_eq] at hfuel ⊢
    exact seek_defstr 2 str pre post fuel (by omega) (by omega) (by omega)
      (by omega)
  | varr vs =>
    simp only [wfValue] at hwf
    have hlen : (encodeValue (.varr vs)).length = (encodeList vs).length + 2 := by
      simp [encodeValue, arrayHeader, breakByte]
    obtain ⟨f, rfl⟩ : ∃ f, fuel = f + 1 := ⟨fuel - 1, by omega⟩
    simp only [checkAndSeek]
    rw [readAt_append_first pre _ post 0x9F
      (by
        simp only [encodeValue]
        rw [headD_append_left _ _ (by simp [arrayHeader]),
          headD_append_left _ _ (by simp [arrayHeader])]
        rfl)
      (encodeValue_ne_nil _)]
    simp only [okBind]
    rw [if_neg (by norm_num), if_neg (by norm_num), if_pos (by norm_num),
      if_pos (by norm_num)]
    have hd : pre ++ encodeValue (.varr vs) ++ post
        = (pre ++ [0x9F]) ++ encodeList vs ++ 0xFF :: post := by
      simp [encodeValue, arrayHeader, breakByte]
    have hoff : pre.length + 1 = (pre ++ [0x9F]).length := by simp
    rw [hd, hoff, seek_list vs (pre ++ [0x9F]) post f hwf (by omega)]
    simp only [Except.ok.injEq, List.length_append, List.length_cons,
      List.length_nil]
    omega
  | vmap kvs =>
    simp only [wfValue] at hwf
    have hlen : (encodeValue (.vmap kvs)).length
        = (encodeEntries kvs).length + 2 := by
      simp [encodeValue, mapHeader, breakByte]
    obtain ⟨f, rfl⟩ : ∃ f, fuel = f + 1 := ⟨fuel - 1, by omega⟩
    simp only [checkAndSeek]
    rw [readAt_append_first pre _ post 0xBF
      (by
        simp only [encodeValue]
        rw [headD_append_left _ _ (by simp [mapHeader]),
          headD_append_left _ _ (by simp [mapHeader])]
        rfl)
      (encodeValue_ne_nil _)]
    simp only [okBind]
    rw [if_neg (by norm_num), if_neg (by norm_num), if_neg (by norm_num),
      if_pos (by norm_num), if_pos (by norm_num)]
    have hd : pre ++ encodeValue (.vmap kvs) ++ post
        = (pre ++ [0xBF]) ++ encodeEntries kvs ++ 0xFF :: post := by
      simp [encodeValue, mapHeader, breakByte]
    have hoff : pre.length + 1 = (pre ++ [0xBF]).length := by simp
    rw [hd, hoff, seek_entries kvs (pre ++ [0xBF]) post f hwf (by omega)]
    simp only [Except.ok.injEq, List.length_append, List.length_cons,
      List.length_nil]
    omega

/-- The indefinite-array loop of the walk seeks past the member bytes and
the break byte. -/
theorem seek_list (es : ValueList) (pre post : Bytes) (fuel : Nat)
    (hwf : wfList es = true) (hfuel : (encodeList es).length + 1 < fuel) :
    indefItems fuel (pre ++ encodeList es ++ 0xFF :: post) pre.length false =
      .ok (pre.length + ((encodeList es).length + 1)) := by
  obtain ⟨f, rfl⟩ : ∃ f, fuel = f + 1 := ⟨fuel - 1, by omega⟩
  cases es with
  | nil =>
    simp only [encodeList, indefItems]
    have hd : pre ++ [] ++ 0xFF :: post = pre ++ [0xFF] ++ post := by simp
    rw [hd, readAt_append_first pre [0xFF] post 0xFF rfl (by simp),
      okBind, if_pos rfl]
    simp
  | cons v tl =>
    simp only [encodeList, List.length_append] at hfuel ⊢
    have hv1 := encodeValue_length_pos v
    simp only [wfList, Bool.and_eq_true] at hwf
    simp only [indefItems]
    have hd : pre ++ (encodeValue v ++ encodeList tl) ++ 0xFF :: post
        = pre ++ encodeValue v ++ (encodeList tl ++ 0xFF :: post) := by
      simp
    rw [hd]
    rw [readAt_append_first pre (encodeValue v) _ ((encodeValue v).headD 0)
      rfl (encodeValue_ne_nil _)]
    simp only [okBind]
    rw [if_neg (encodeValue_headD v).1, if_neg (Bool.false_ne_true)]
    rw [seek_encode v pre (encodeList tl ++ 0xFF :: post) f hwf.1
      (by omega)]
    simp only [okBind]
    have hd2 : pre ++ encodeValue v ++ (encodeList tl ++ 0xFF :: post)
        = (pre ++ encodeValue v) ++ encodeList tl ++ 0xFF :: post := by
      simp [List.append_assoc]
    have hoff : pre.length + (encodeValue v).length
        = (pre ++ encodeValue v).length := by simp
    rw [hd2, hoff, seek_list tl (pre ++ encodeValue v) post f hwf.2
      (by omega)]
    simp only [Except.ok.injEq, List.length_append]
    omega

/-- The indefinite-map loop of the walk seeks past the entry bytes and the
break byte. -/
theorem seek_entries (kvs : EntryList) (pre post : Bytes) (fuel : Nat)
    (hwf : wfEntries kvs = true)
    (hfuel : (encodeEntries kvs).length + 1 < fuel) :
    indefItems fuel (pre ++ encodeEntries kvs ++ 0xFF :: post) pre.length true =
      .ok (pre.length + ((encodeEntries kvs).length + 1)) := by
  obtain ⟨f, rfl⟩ : ∃ f, fuel = f + 1 := ⟨fuel - 1, by omega⟩
  cases kvs with
  | nil =>
    simp only [encodeEntries, indefItems]
    have hd : pre ++ [] ++ 0xFF :: post = pre ++ [0xFF] ++ post := by simp
    rw [hd, readAt_append_first pre [0xFF] post 0xFF rfl (by simp),
      okBind, if_pos rfl]
    simp
  | cons k v tl =>
    simp only [encodeEntries, List.length_append] at hfuel ⊢
    have hv1 := encodeValue_length_pos v
    have hk1 := writeString_length_pos k
    simp only [wfEntries, Bool.and_eq_true, decide_eq_true_eq] at hwf
    obtain ⟨⟨⟨⟨hka, hkl⟩, hwv⟩, hlt⟩, htl⟩ := hwf
    simp only [indefItems]
    have hd : pre ++ (writeString k ++ encodeValue v ++ encodeEntries tl)
          ++ 0xFF :: post
        = pre ++ writeString k
          ++ (encodeValue v ++ encodeEntries tl ++ 0xFF :: post) := by
      simp [List.append_assoc]
    rw [hd]
    rw [readAt_append_first pre (writeString k) _ (3 * 32 + intCode k.length)
      (writeString_headD k) (writeString_ne_nil _)]
    simp only [okBind]
    have hcode := intCode_lt k.length
    rw [if_neg (by omega), if_pos trivial]
    have hkey : checkAndSeek f
        (pre ++ writeString k ++ (encodeValue v ++ encodeEntries tl ++ 0xFF :: post))
        pre.length = .ok (pre.length + (writeString k).length) := by
      rw [writeString_eq]
      exact seek_defstr 3 k pre _ f (by omega) (by omega) (by omega) (by omega)
    rw [hkey]
    simp only [okBind]
    have hd2 : pre ++ writeString k
          ++ (encodeValue v ++ encodeEntries tl ++ 0xFF :: post)
        = (pre ++ writeString k) ++ encodeValue v
          ++ (encodeEntries tl ++ 0xFF :: post) := by
      simp [List.append_assoc]
    have hoff : pre.length + (writeString k).length
        = (pre ++ writeString k).length := by simp
    rw [hd2, hoff, seek_encode v (pre ++ writeString k)
      (encodeEntries tl ++ 0xFF :: post) f hwv (by omega)]
    simp only [okBind]
    have hd3 : (pre ++ writeString k) ++ encodeValue v
          ++ (encodeEntries tl ++ 0xFF :: post)
        = ((pre ++ writeString k) ++ encodeValue v)
          ++ encodeEntries tl ++ 0xFF :: post := by
      simp [List.append_assoc]
    have hoff2 : (pre ++ writeString k).length + (encodeValue v).length
        = ((pre ++ writeString k) ++ encodeValue v).length := by
      simp only [List.length_append]
    rw [hd3, hoff2, seek_entries tl ((pre ++ writeString k) ++ encodeValue v)
      post f htl (by omega)]
    simp only [Except.ok.injEq, List.length_append]
    omega

end

/-- Reading the first byte of a non-empty slice. -/
theorem readAt_zero (d : Bytes) (h : d ≠ []) : readAt d 0 = .ok (d.headD 0) := by
  unfold readAt
  cases d with
  | nil => exact absurd rfl h
  | cons x xs => simp

/-- `read_intlike` on a slice that starts with a `write_int` header. -/
theorem readIntlike_header_zero (major value : Nat) (post : Bytes)
    (hm : major < 8) (hv : value < 2 ^ 64) :
    readIntlike (intHeader major value ++ post)
      ((intHeader major value).headD 0 % 32) 1 =
    .ok (value, (intHeader major value).length) := by
  have h := readIntlike_intHeader major value [] post hm hv
  simpa using h

/-- `read_intlike` on exactly a `write_int` header. -/
theorem readIntlike_header_exact (major value : Nat)
    (hm : major < 8) (hv : value < 2 ^ 64) :
    readIntlike (intHeader major value)
      ((intHeader major value).headD 0 % 32) 1 =
    .ok (value, (intHeader major value).length) := by
  have h := readIntlike_intHeader major value [] [] hm hv
  simpa using h

/-- `as_int` recovers the integer written by `write_int`, including both
`int64` extremes. -/
theorem asInt_writeInt (i : Int) (hlo : -(2 ^ 63) ≤ i) (hhi : i < 2 ^ 63) :
    asInt (writeInt i) = .ok i := by
  unfold asInt
  by_cases hneg : i < 0
  · have he : writeInt i = intHeader 1 (-1 - i).toNat := by
      unfold writeInt writeIntMajor
      rw [if_pos hneg]
    have hh := intHeader_headD 1 (-1 - i).toNat (by omega)
    have hcode := intCode_lt (-1 - i).toNat
    rw [he, readAt_zero _ (intHeader_ne_nil _ _)]
    simp only [okBind]
    rw [if_neg (by rw [hh]; omega)]
    rw [readIntlike_header_exact 1 (-1 - i).toNat (by omega) (by omega)]
    simp only [okBind]
    rw [if_neg (by omega), if_neg (by rw [hh]; omega)]
    simp only [Except.ok.injEq]
    have : ((-1 - i).toNat : Int) = -1 - i := Int.toNat_of_nonneg (by omega)
    omega
  · have he : writeInt i = intHeader 0 i.toNat := by
      unfold writeInt writeIntMajor
      rw [if_neg hneg]
    have hh := intHeader_headD 0 i.toNat (by omega)
    have hcode := intCode_lt i.toNat
    rw [he, readAt_zero _ (intHeader_ne_nil _ _)]
    simp only [okBind]
    rw [if_neg (by rw [hh]; omega)]
    rw [readIntlike_header_exact 0 i.toNat (by omega) (by omega)]
    simp only [okBind]
    rw [if_neg (by omega), if_pos (by rw [hh]; omega)]
    simp only [Except.ok.injEq]
    have : (i.toNat : Int) = i := Int.toNat_of_nonneg (by omega)
    omega

/-- `as_null` accepts the byte written by `write_null`. -/
theorem asNull_writeNull : asNull writeNull = .ok () := by
  unfold asNull writeNull
  rw [readAt_zero _ (by simp)]
  simp

/-- `as_bool` recovers the boolean written by `write_bool`. -/
theorem asBool_writeBool (b : Bool) : asBool (writeBool b) = .ok b := by
  unfold asBool writeBool
  cases b <;> simp [readAt_zero]

/-- `as_float` recovers the bit pattern written by `write_float`. -/
theorem asFloat_writeFloat (bits : Nat) (hv : bits < 2 ^ 64) :
    asFloat (writeFloat bits) = .ok bits := by
  unfold asFloat writeFloat
  norm_num [beBytes, readIntlike, readAt, Nat.shiftRight_eq_div_pow]
  omega

/-- `read_stringlike` recovers the content and length of a `write_string`
output slice. -/
theorem readStringlike_writeString (s : Bytes) (fuel : Nat)
    (hf : 1 ≤ fuel) (hlen : s.length < 2 ^ 63) :
    readStringlike fuel (writeString s) 0 =
      .ok (s, (writeString s).length) := by
  obtain ⟨f, rfl⟩ : ∃ f, fuel = f + 1 := ⟨fuel - 1, by omega⟩
  rw [writeString_eq]
  simp only [readStringlike]
  have hne : intHeader 3 s.length ++ s ≠ [] := fun h =>
    intHeader_ne_nil 3 s.length (List.append_eq_nil.mp h).1
  rw [readAt_zero _ hne, headD_append_left _ _ (intHeader_ne_nil _ _)]
  simp only [okBind]
  have hcode := intCode_lt s.length
  have hh := intHeader_headD 3 s.length (by omega)
  rw [if_neg (by rw [hh]; omega)]
  rw [readIntlike_header_zero 3 s.length s (by omega) (by omega)]
  simp only [okBind]
  rw [if_neg (by simp only [List.length_append]; omega)]
  rw [List.drop_left, List.take_length]
  simp only [Except.ok.injEq, List.length_append, Prod.mk.injEq]

/-- `as_string` recovers the string written by `write_string`. -/
theorem asString_writeString (s : Bytes) (fuel : Nat)
    (hf : 1 ≤ fuel) (hlen : s.length < 2 ^ 63) :
    asString fuel (writeString s) = .ok s := by
  unfold asString
  rw [readAt_zero _ (writeString_ne_nil s), writeString_headD]
  simp only [okBind]
  have hcode := intCode_lt s.length
  rw [if_neg (by omega), readStringlike_writeString s fuel hf hlen]
  rfl

/-- `write_binary` is never empty. -/
theorem writeBinary_ne_nil (s : Bytes) : writeBinary s ≠ [] := by
  rw [writeBinary_eq]
  intro h
  exact intHeader_ne_nil 2 s.length (List.append_eq_nil.mp h).1

/-- The initial byte of `write_binary` output. -/
theorem writeBinary_headD (s : Bytes) :
    (writeBinary s).headD 0 = 2 * 32 + intCode s.length := by
  rw [writeBinary_eq, headD_append_left _ _ (intHeader_ne_nil _ _),
    intHeader_headD 2 _ (by omega)]

/-- `read_stringlike` recovers the content and length of a `write_binary`
output slice. -/
theorem readStringlike_writeBinary (s : Bytes) (fuel : Nat)
    (hf : 1 ≤ fuel) (hlen : s.length < 2 ^ 63) :
    readStringlike fuel (writeBinary s) 0 =
      .ok (s, (writeBinary s).length) := by
  obtain ⟨f, rfl⟩ : ∃ f, fuel = f + 1 := ⟨fuel - 1, by omega⟩
  rw [writeBinary_eq]
  simp only [readStringlike]
  have hne : intHeader 2 s.length ++ s ≠ [] := fun h =>
    intHeader_ne_nil 2 s.length (List.append_eq_nil.mp h).1
  rw [readAt_zero _ hne, headD_append_left _ _ (intHeader_ne_nil _ _)]
  simp only [okBind]
  have hcode := intCode_lt s.length
  have hh := intHeader_headD 2 s.length (by omega)
  rw [if_neg (by rw [hh]; omega)]
  rw [readIntlike_header_zero 2 s.length s (by omega) (by omega)]
  simp only [okBind]
  rw [if_neg (by simp only [List.length_append]; omega)]
  rw [List.drop_left, List.take_length]
  simp only [Except.ok.injEq, List.length_append, Prod.mk.injEq]

/-- `as_binary` recovers the string written by `write_binary`. -/
theorem asBinary_writeBinary (s : Bytes) (fuel : Nat)
    (hf : 1 ≤ fuel) (hlen : s.length < 2 ^ 63) :
    asBinary fuel (writeBinary s) = .ok s := by
  unfold asBinary
  rw [readAt_zero _ (writeBinary_ne_nil s), writeBinary_headD]
  simp only [okBind]
  have hcode := intCode_lt s.length
  rw [if_neg (by omega), readStringlike_writeBinary s fuel hf hlen]
  rfl

/-- Subslicing an exact middle extent returns exactly the middle bytes
(no semantic tag skipping on writer output, whose initial byte is never a
tag). -/
theorem mkSlice_exact (mid pre post : Bytes) (hne : mid ≠ [])
    (htag : mid.headD 0 / 32 ≠ 6) :
    mkSlice (pre ++ mid ++ post) pre.length mid.length = .ok mid := by
  unfold mkSlice
  rw [if_neg (by simp only [List.length_append]; omega)]
  have hpos : 1 ≤ mid.length := by
    cases mid with
    | nil => exact absurd rfl hne
    | cons x xs => simp
  rw [if_neg (by omega)]
  have hs : ((pre ++ mid ++ post).drop pre.length).take mid.length = mid := by
    rw [List.append_assoc, List.drop_left, List.take_left]
  simp only [hs]
  rw [readAt_zero mid hne]
  simp only [okBind]
  rw [if_neg htag]

/-- Lexicographic byte comparison is asymmetric. -/
theorem bytesLt_asymm (a b : Bytes) (h : bytesLt a b = true) :
    bytesLt b a = false := by
  induction a generalizing b with
  | nil =>
    cases b with
    | nil => simp [bytesLt] at h
    | cons y ys => simp [bytesLt]
  | cons x xs ih =>
    cases b with
    | nil => simp [bytesLt] at h
    | cons y ys =>
      simp only [bytesLt] at h ⊢
      by_cases hxy : x < y
      · rw [if_neg (by omega), if_pos hxy]
      · by_cases hyx : y < x
        · rw [if_neg hxy, if_pos hyx] at h
          exact absurd h (by simp)
        · rw [if_neg hxy, if_neg hyx] at h
          rw [if_neg hyx, if_neg hxy]
          exact ih ys h

/-- `std::map::insert` of a key above every present key appends at the
end. -/
theorem mapInsert_append (k v : Bytes) (m : MapReader)
    (h : ∀ kv ∈ m, bytesLt kv.1 k = true) :
    mapInsert k v m = m ++ [(k, v)] := by
  induction m with
  | nil => rfl
  | cons kv rest ih =>
    obtain ⟨k1, v1⟩ := kv
    have h1 : bytesLt k1 k = true := h (k1, v1) (List.mem_cons_self _ _)
    unfold mapInsert
    rw [if_neg (by rw [bytesLt_asymm k1 k h1]; simp), if_pos h1,
      ih fun kv hm => h kv (List.mem_cons_of_mem _ hm)]
    simp

/-- Splitting the strictly-below-all-keys predicate on a cons. -/
theorem keyLtAll_cons (k k1 : Bytes) (v1 : Value) (tl : EntryList)
    (h : keyLtAll k (.cons k1 v1 tl) = true) :
    bytesLt k k1 = true ∧ keyLtAll k tl = true := by
  simpa [keyLtAll, Bool.and_eq_true] using h

/-- The indefinite-length loop of `as_array` over writer output collects
exactly the element slices, in order. -/
theorem arrItems_encode (es : ValueList) (pre post : Bytes) (fuel : Nat)
    (acc : List Bytes) (hwf : wfList es = true)
    (hfuel : (encodeList es).length + 1 < fuel) :
    arrItemsIndef fuel (pre ++ encodeList es ++ 0xFF :: post) pre.length acc =
      .ok (acc.reverse ++ encSlices es) := by
  obtain ⟨f, rfl⟩ : ∃ f, fuel = f + 1 := ⟨fuel - 1, by omega⟩
  cases es with
  | nil =>
    simp only [encodeList, arrItemsIndef, encSlices]
    have hd : pre ++ [] ++ 0xFF :: post = pre ++ [0xFF] ++ post := by simp
    rw [hd, readAt_append_first pre [0xFF] post 0xFF rfl (by simp),
      okBind, if_pos rfl]
    simp
  | cons v tl =>
    have hv1 := encodeValue_length_pos v
    have htl1 : (encodeList (.cons v tl)).length
        = (encodeValue v).length + (encodeList tl).length := by
      simp [encodeList]
    simp only [wfList, Bool.and_eq_true] at hwf
    simp only [arrItemsIndef]
    have hd : pre ++ encodeList (.cons v tl) ++ 0xFF :: post
        = pre ++ encodeValue v ++ (encodeList tl ++ 0xFF :: post) := by
      simp [encodeList, List.append_assoc]
    rw [hd]
    rw [readAt_append_first pre (encodeValue v) _ ((encodeValue v).headD 0)
      rfl (encodeValue_ne_nil _)]
    simp only [okBind]
    rw [if_neg (encodeValue_headD v).1]
    rw [seek_encode v pre (encodeList tl ++ 0xFF :: post) f hwf.1 (by omega)]
    simp only [okBind]
    have hsub : pre.length + (encodeValue v).length - pre.length
        = (encodeValue v).length := by omega
    rw [hsub, mkSlice_exact (encodeValue v) pre _ (encodeValue_ne_nil v)
      (encodeValue_headD v).2]
    simp only [okBind]
    have hd2 : pre ++ encodeValue v ++ (encodeList tl ++ 0xFF :: post)
        = (pre ++ encodeValue v) ++ encodeList tl ++ 0xFF :: post := by
      simp [List.append_assoc]
    have hoff : pre.length + (encodeValue v).length
        = (pre ++ encodeValue v).length := by simp
    rw [hd2, hoff, arrItems_encode tl (pre ++ encodeValue v) post f
      (encodeValue v :: acc) hwf.2 (by omega)]
    simp [encSlices]

/-- `as_array` on writer output returns exactly the element slices. -/
theorem asArray_encode (vs : ValueList) (fuel : Nat) (hwf : wfList vs = true)
    (hfuel : (encodeList vs).length + 2 ≤ fuel) :
    asArray fuel (encodeValue (.varr vs)) = .ok (encSlices vs) := by
  unfold asArray
  have hhead : (encodeValue (.varr vs)).headD 0 = 0x9F := by
    simp only [encodeValue]
    rw [headD_append_left _ _ (by simp [arrayHeader]),
      headD_append_left _ _ (by simp [arrayHeader])]
    rfl
  rw [readAt_zero _ (encodeValue_ne_nil _), hhead]
  simp only [okBind]
  rw [if_neg (by norm_num), if_pos (by norm_num)]
  have hd : encodeValue (.varr vs)
      = [0x9F] ++ encodeList vs ++ 0xFF :: ([] : Bytes) := by
    simp [encodeValue, arrayHeader, breakByte]
  have hoff : (1 : Nat) = ([0x9F] : Bytes).length := by simp
  rw [hd, hoff, arrItems_encode vs [0x9F] [] fuel [] hwf (by omega)]
  simp

/-- `check_and_seek` on `write_string` output. -/
theorem seek_writeString (s pre post : Bytes) (fuel : Nat)
    (hlen : s.length < 2 ^ 63) (hfuel : 1 ≤ fuel) :
    checkAndSeek fuel (pre ++ writeString s ++ post) pre.length =
      .ok (pre.length + (writeString s).length) := by
  rw [writeString_eq]
  exact seek_defstr 3 s pre post fuel (by omega) (by omega) (by omega) hfuel

/-- `read_map_item` on one writer-output entry: the key string is read
back and the pair is `insert`ed. -/
theorem readMapItem_encode (k : Bytes) (v : Value) (pre rest : Bytes)
    (fuel : Nat) (m : MapReader) (hk : k.length < 2 ^ 63)
    (hwv : wfValue v = true) (hfuel1 : 1 ≤ fuel)
    (hfuelv : (encodeValue v).length < fuel) :
    readMapItem fuel (pre ++ writeString k ++ (encodeValue v ++ rest))
      pre.length m =
    .ok (mapInsert k (encodeValue v) m,
      pre.length + (writeString k).length + (encodeValue v).length) := by
  unfold readMapItem
  rw [seek_writeString k pre (encodeValue v ++ rest) fuel hk hfuel1]
  simp only [okBind]
  have hd2 : pre ++ writeString k ++ (encodeValue v ++ rest)
      = (pre ++ writeString k) ++ encodeValue v ++ rest := by
    simp [List.append_assoc]
  have hd3 : (pre ++ writeString k) ++ encodeValue v ++ rest
      = pre ++ writeString k ++ (encodeValue v ++ rest) := hd2.symm
  have hoff : pre.length + (writeString k).length
      = (pre ++ writeString k).length := by simp
  rw [hd2, hoff, seek_encode v (pre ++ writeString k) rest fuel hwv hfuelv]
  simp only [okBind]
  have hsub1 : (pre ++ writeString k).length + (encodeValue v).length
      - (pre ++ writeString k).length = (encodeValue v).length := by omega
  have hsub2 : (pre ++ writeString k).length - pre.length
      = (writeString k).length := by simp
  rw [hsub1, hsub2, hd3,
    mkSlice_exact (writeString k) pre (encodeValue v ++ rest)
      (writeString_ne_nil k)
      (by rw [writeString_headD]; have := intCode_lt k.length; omega)]
  simp only [okBind]
  rw [hd2, mkSlice_exact (encodeValue v) (pre ++ writeString k) rest
    (encodeValue_ne_nil v) (encodeValue_headD v).2]
  simp only [okBind]
  rw [asString_writeString k fuel hfuel1 hk]
  simp only [okMap, Except.ok.injEq, Prod.mk.injEq]

/-- The indefinite-length loop of `as_map` over writer output inserts the
entries in encounter order; with strictly ascending keys (and every key of
the accumulator below every remaining key), the result is the accumulator
extended by the entry list. -/
theorem mapItems_encode (kvs : EntryList) (pre post : Bytes) (fuel : Nat)
    (m : MapReader) (hwf : wfEntries kvs = true)
    (hfuel : (encodeEntries kvs).length + 1 < fuel)
    (hbelow : mrKeysBelow m kvs) :
    mapItemsIndef fuel (pre ++ encodeEntries kvs ++ 0xFF :: post) pre.length m
      = .ok (m ++ entrySlices kvs) := by
  obtain ⟨f, rfl⟩ : ∃ f, fuel = f + 1 := ⟨fuel - 1, by omega⟩
  cases kvs with
  | nil =>
    simp only [encodeEntries, mapItemsIndef, entrySlices]
    have hd : pre ++ [] ++ 0xFF :: post = pre ++ [0xFF] ++ post := by simp
    rw [hd, readAt_append_first pre [0xFF] post 0xFF rfl (by simp),
      okBind, if_pos rfl]
    simp
  | cons k v tl =>
    have hv1 := encodeValue_length_pos v
    have hk1 := writeString_length_pos k
    have hlen : (encodeEntries (.cons k v tl)).length
        = (writeString k).length + (encodeValue v).length
          + (encodeEntries tl).length := by
      simp only [encodeEntries, List.length_append]
    simp only [wfEntries, Bool.and_eq_true, decide_eq_true_eq] at hwf
    obtain ⟨⟨⟨⟨hka, hkl⟩, hwv⟩, hlt⟩, htl⟩ := hwf
    simp only [mapItemsIndef]
    have hd : pre ++ encodeEntries (.cons k v tl) ++ 0xFF :: post
        = pre ++ writeString k
          ++ (encodeValue v ++ (encodeEntries tl ++ 0xFF :: post)) := by
      simp [encodeEntries, List.append_assoc]
    rw [hd]
    rw [readAt_append_first pre (writeString k) _ (3 * 32 + intCode k.length)
      (writeString_headD k) (writeString_ne_nil _)]
    simp only [okBind]
    have hcode := intCode_lt k.length
    rw [if_neg (by omega)]
    rw [readMapItem_encode k v pre (encodeEntries tl ++ 0xFF :: post) f m
      hkl hwv (by omega) (by omega)]
    simp only [okBind]
    rw [mapInsert_append k (encodeValue v) m
      (fun kv hm => (keyLtAll_cons kv.1 k v tl (hbelow kv hm)).1)]
    have hd4 : pre ++ writeString k
          ++ (encodeValue v ++ (encodeEntries tl ++ 0xFF :: post))
        = (pre ++ writeString k ++ encodeValue v)
          ++ encodeEntries tl ++ 0xFF :: post := by
      simp [List.append_assoc]
    have hoff4 : pre.length + (writeString k).length + (encodeValue v).length
        = (pre ++ writeString k ++ encodeValue v).length := by
      simp only [List.length_append]
    have hbelow2 : mrKeysBelow (m ++ [(k, encodeValue v)]) tl := by
      intro kv hm
      rcases List.mem_append.mp hm with hm1 | hm2
      · exact (keyLtAll_cons kv.1 k v tl (hbelow kv hm1)).2
      · have : kv = (k, encodeValue v) := by simpa using hm2
        rw [this]
        exact hlt
    rw [hd4, hoff4, mapItems_encode tl (pre ++ writeString k ++ encodeValue v)
      post f (m ++ [(k, encodeValue v)]) htl (by omega) hbelow2]
    simp [entrySlices]

/-- `as_map` on writer output returns exactly the entry list, with the
keys read back as strings. -/
theorem asMap_encode (kvs : EntryList) (fuel : Nat)
    (hwf : wfEntries kvs = true)
    (hfuel : (encodeEntries kvs).length + 2 ≤ fuel) :
    asMap fuel (encodeValue (.vmap kvs)) = .ok (entrySlices kvs) := by
  unfold asMap
  have hhead : (encodeValue (.vmap kvs)).headD 0 = 0xBF := by
    simp only [encodeValue]
    rw [headD_append_left _ _ (by simp [mapHeader]),
      headD_append_left _ _ (by simp [mapHeader])]
    rfl
  rw [readAt_zero _ (encodeValue_ne_nil _), hhead]
  simp only [okBind]
  rw [if_neg (by norm_num), if_pos (by norm_num)]
  have hd : encodeValue (.vmap kvs)
      = [0xBF] ++ encodeEntries kvs ++ 0xFF :: ([] : Bytes) := by
    simp [encodeValue, mapHeader, breakByte]
  have hoff : (1 : Nat) = ([0xBF] : Bytes).length := by simp
  rw [hd, hoff, mapItems_encode kvs [0xBF] [] fuel [] hwf (by omega)
    (fun kv hm => absurd hm (List.not_mem_nil kv))]
  simp

/-- Upper bound on the initial byte of `write_int` output. -/
theorem writeInt_headD_le (i : Int) : (writeInt i).headD 0 ≤ 59 := by
  unfold writeInt writeIntMajor
  split_ifs with h
  · rw [intHeader_headD 1 _ (by omega)]
    have := intCode_lt (-1 - i).toNat
    omega
  · rw [intHeader_headD 0 _ (by omega)]
    have := intCode_lt i.toNat
    omega

mutual

/-- Reading writer output back through the matching accessors recovers the
value. -/
theorem readValue_encode (v : Value) (fuel : Nat) (hwf : wfValue v = true)
    (hfuel : (encodeValue v).length < fuel) :
    readValue fuel (encodeValue v) = .ok v := by
  obtain ⟨f, rfl⟩ : ∃ f, fuel = f + 1 := ⟨fuel - 1, by omega⟩
  simp only [readValue]
  rw [readAt_zero _ (encodeValue_ne_nil v)]
  simp only [okBind]
  cases v with
  | vnull =>
    have he : encodeValue .vnull = writeNull := rfl
    rw [he, show (writeNull.headD 0) = 0xF6 from rfl, if_pos rfl,
      asNull_writeNull]
    rfl
  | vbool b =>
    have he : encodeValue (.vbool b) = writeBool b := rfl
    rw [he]
    cases b with
    | false =>
      rw [show ((writeBool false).headD 0) = 0xF4 from rfl,
        if_neg (by norm_num), if_pos (Or.inl rfl), asBool_writeBool]
      rfl
    | true =>
      rw [show ((writeBool true).headD 0) = 0xF5 from rfl,
        if_neg (by norm_num), if_pos (Or.inr rfl), asBool_writeBool]
      rfl
  | vint i =>
    simp only [wfValue, Bool.and_eq_true, decide_eq_true_eq] at hwf
    have he : encodeValue (.vint i) = writeInt i := rfl
    have hb := writeInt_headD_le i
    rw [he, if_neg (by omega), if_neg (by omega), if_pos (by omega),
      asInt_writeInt i (by omega) (by omega)]
    rfl
  | vfloat bits =>
    simp only [wfValue, decide_eq_true_eq] at hwf
    have he : encodeValue (.vfloat bits) = writeFloat bits := rfl
    have hb : (writeFloat bits).headD 0 = 0xFB := rfl
    rw [he, hb, if_neg (by norm_num), if_neg (by norm_num),
      if_neg (by norm_num), if_pos rfl, asFloat_writeFloat bits (by omega)]
    rfl
  | vstr str =>
    simp only [wfValue, Bool.and_eq_true, decide_eq_true_eq] at hwf
    have he : encodeValue (.vstr str) = writeString str := rfl
    have hb := writeString_headD str
    have hcode := intCode_lt str.length
    rw [he, hb, if_neg (by omega), if_neg (by omega), if_neg (by omega),
      if_neg (by omega), if_pos (by omega),
      asString_writeString str (f + 1) (by omega) (by omega)]
    rfl
  | vbin str =>
    simp only [wfValue, Bool.and_eq_true, decide_eq_true_eq] at hwf
    have he : encodeValue (.vbin str) = writeBinary str := rfl
    have hb := writeBinary_headD str
    have hcode := intCode_lt str.length
    rw [he, hb, if_neg (by omega), if_neg (by omega), if_neg (by omega),
      if_neg (by omega), if_neg (by omega), if_pos (by omega),
      asBinary_writeBinary str (f + 1) (by omega) (by omega)]
    rfl
  | varr vs =>
    simp only [wfValue] at hwf
    have hlen : (encodeValue (.varr vs)).length
        = (encodeList vs).length + 2 := by
      simp [encodeValue, arrayHeader, breakByte]
    have hb : (encodeValue (.varr vs)).headD 0 = 0x9F := by
      simp only [encodeValue]
      rw [headD_append_left _ _ (by simp [arrayHeader]),
        headD_append_left _ _ (by simp [arrayHeader])]
      rfl
    rw [hb, if_neg (by norm_num), if_neg (by norm_num), if_neg (by norm_num),
      if_neg (by norm_num), if_neg (by norm_num), if_neg (by norm_num),
      if_pos (by norm_num),
      asArray_encode vs (f + 1) hwf (by omega)]
    simp only [okBind]
    rw [readSlices_encode vs f hwf (by omega)]
    rfl
  | vmap kvs =>
    simp only [wfValue] at hwf
    have hlen : (encodeValue (.vmap kvs)).length
        = (encodeEntries kvs).length + 2 := by
      simp [encodeValue, mapHeader, breakByte]
    have hb : (encodeValue (.vmap kvs)).headD 0 = 0xBF := by
      simp only [encodeValue]
      rw [headD_append_left _ _ (by simp [mapHeader]),
        headD_append_left _ _ (by simp [mapHeader])]
      rfl
    rw [hb, if_neg (by norm_num), if_neg (by norm_num), if_neg (by norm_num),
      if_neg (by norm_num), if_neg (by norm_num), if_neg (by norm_num),
      if_neg (by norm_num), if_pos (by norm_num),
      asMap_encode kvs (f + 1) hwf (by omega)]
    simp only [okBind]
    rw [readEntrySlices_encode kvs f hwf (by omega)]
    rfl

/-- Reading each element slice back recovers the element list. -/
theorem readSlices_encode (es : ValueList) (fuel : Nat)
    (hwf : wfList es = true) (hfuel : (encodeList es).length < fuel) :
    readSlices fuel (encSlices es) = .ok es := by
  cases es with
  | nil => simp [encSlices, readSlices]
  | cons v tl =>
    have hv1 := encodeValue_length_pos v
    have hlen : (encodeList (.cons v tl)).length
        = (encodeValue v).length + (encodeList tl).length := by
      simp [encodeList]
    simp only [wfList, Bool.and_eq_true] at hwf
    simp only [encSlices, readSlices]
    rw [readValue_encode v fuel hwf.1 (by omega)]
    simp only [okBind]
    rw [readSlices_encode tl fuel hwf.2 (by omega)]
    rfl

/-- Reading each entry value slice back recovers the entry list. -/
theorem readEntrySlices_encode (kvs : EntryList) (fuel : Nat)
    (hwf : wfEntries kvs = true) (hfuel : (encodeEntries kvs).length < fuel) :
    readEntrySlices fuel (entrySlices kvs) = .ok kvs := by
  cases kvs with
  | nil => simp [entrySlices, readEntrySlices]
  | cons k v tl =>
    have hv1 := encodeValue_length_pos v
    have hk1 := writeString_length_pos k
    have hlen : (encodeEntries (.cons k v tl)).length
        = (writeString k).length + (encodeValue v).length
          + (encodeEntries tl).length := by
      simp only [encodeEntries, List.length_append]
    simp only [wfEntries, Bool.and_eq_true, decide_eq_true_eq] at hwf
    obtain ⟨⟨⟨⟨hka, hkl⟩, hwv⟩, hlt⟩, htl⟩ := hwf
    simp only [entrySlices, readEntrySlices]
    rw [readValue_encode v fuel hwv (by omega)]
    simp only [okBind]
    rw [readEntrySlices_encode tl fuel htl (by omega)]
    rfl

end

/-- C1: CBOR round-trip.  For every supported value `v` (null, a bool, a
64-bit signed integer including the extremes, a float64 bit pattern, a
byte or UTF-8 string, or a nesting of arrays and string-keyed maps of such
values, of any depth — which covers the claimed depth up to 8), writing
`v` with the CBOR writer operations and then constructing a `cbor::Reader`
over the produced bytes succeeds, and reading the bytes back with the
matching `as_*` accessors yields a value structurally equal to `v`. -/
theorem claim_C1_cbor_round_trip (v : Value) (hwf : wfValue v = true) :
    constructReader (encodeValue v) = .ok () ∧
    readTop (encodeValue v) = .ok v := by
  constructor
  · unfold constructReader mkReader readerCheck
    rw [if_neg (by have := encodeValue_length_pos v; omega)]
    have hs := seek_encode v [] [] ((encodeValue v).length + 1) hwf (by omega)
    simp only [List.nil_append, List.append_nil, List.length_nil,
      Nat.zero_add] at hs
    rw [hs]
    simp only [okBind]
    rw [if_pos trivial]
  · unfold readTop
    exact readValue_encode v ((encodeValue v).length + 1) hwf (by omega)

/-- C1 witness: the round trip evaluated at a concrete nested value that
contains every supported kind, both `int64` extremes included. -/
theorem claim_C1_cbor_round_trip_witness :
    wfValue sampleValue = true ∧
    (constructReader (encodeValue sampleValue) = .ok () ∧
      readTop (encodeValue sampleValue) = .ok sampleValue) :=
  ⟨by decide, claim_C1_cbor_round_trip sampleValue (by decide)⟩

/-- The byte count of `write_int`'s output is determined by the encoded
magnitude thresholds 24, 2^8, 2^16, 2^32. -/
theorem writeInt_length (intValue : Int)
    (hlo : -(2 ^ 63) ≤ intValue) (hhi : intValue < 2 ^ 63) :
    (writeInt intValue).length =
      if encodedMagnitude intValue < 24 then 1
      else if encodedMagnitude intValue < 2 ^ 8 then 2
      else if encodedMagnitude intValue < 2 ^ 16 then 3
      else if encodedMagnitude intValue < 2 ^ 32 then 5
      else 9 := by
  unfold writeInt writeIntMajor encodedMagnitude
  split <;> rw [intHeader_length]

/-- C6: for every `int64` value, `StructureWriter::write_int` emits the
minimal applicable of the 1/2/3/5/9-byte encodings (by the thresholds 24,
2^8, 2^16, 2^32 on the encoded magnitude), and
`StructureWriter::write_float` always emits the 9-byte double-precision
encoding regardless of the value. -/
theorem claim_C6_minimal_encodings (intValue : Int) (bits : Nat)
    (hlo : -(2 ^ 63) ≤ intValue) (hhi : intValue < 2 ^ 63) :
    ((writeInt intValue).length =
      if encodedMagnitude intValue < 24 then 1
      else if encodedMagnitude intValue < 2 ^ 8 then 2
      else if encodedMagnitude intValue < 2 ^ 16 then 3
      else if encodedMagnitude intValue < 2 ^ 32 then 5
      else 9) ∧
    (writeFloat bits).length = 9 := by
  refine ⟨writeInt_length intValue hlo hhi, ?_⟩
  simp [writeFloat, beBytes_length]

/-- C6 witness: the encoding widths evaluated at a concrete value of each
magnitude class and a concrete float. -/
theorem claim_C6_minimal_encodings_witness :
    -(2 ^ 63) ≤ (-4242 : Int) ∧ (-4242 : Int) < 2 ^ 63 ∧
    ((writeInt (-4242)).length =
      if encodedMagnitude (-4242) < 24 then 1
      else if encodedMagnitude (-4242) < 2 ^ 8 then 2
      else if encodedMagnitude (-4242) < 2 ^ 16 then 3
      else if encodedMagnitude (-4242) < 2 ^ 32 then 5
      else 9) ∧
    (writeFloat 0x400921FB54442EEA).length = 9 :=
  ⟨by decide, by decide,
    claim_C6_minimal_encodings (-4242) 0x400921FB54442EEA (by decide)
      (by decide)⟩

/-- C8: only the innermost (top-of-stack) writer handle may write: a
write through any other handle — in particular an outer handle shadowed by
an open nested `ArrayWriter`/`MapWriter` — fails with the inactive-writer
error and leaves the output unchanged (the member writes only reach the
stream through the `stream()` check); `close()` on the innermost handle
writes the break byte and pops the handle off the stack, after which the
parent handle's writes succeed again. -/
theorem claim_C8_writer_stack (w : Writer) (h : SWriter) (bs : Bytes) :
    (w.stack.headD 0 ≠ h.id →
      h.writeBytes w bs =
        .error "Attempt to write to CBOR object using inactive writer") ∧
    (∀ p rest, w.stack = h.id :: p :: rest →
      h.close w = .ok ⟨w.output ++ breakByte, p :: rest, w.idCounter⟩ ∧
      SWriter.writeBytes ⟨p⟩ ⟨w.output ++ breakByte, p :: rest, w.idCounter⟩ bs
        = .ok ⟨(w.output ++ breakByte) ++ bs, p :: rest, w.idCounter⟩) := by
  constructor
  · intro hne
    unfold SWriter.writeBytes SWriter.stream
    rw [if_neg (by intro hc; exact hne hc.1)]
    rfl
  · intro p rest hstack
    constructor
    · unfold SWriter.close SWriter.stream
      rw [hstack, if_pos (by simp)]
      rfl
    · unfold SWriter.writeBytes SWriter.stream
      rw [if_pos (by simp)]
      rfl

/-- C8 witness: a concrete writer with a nested handle open — the outer
handle's write fails, closing the inner one pops it, and the outer handle
then writes. -/
theorem claim_C8_writer_stack_witness :
    (Writer.mk [0xBF, 0x9F] [2, 1] 3).stack.headD 0 ≠ (SWriter.mk 1).id ∧
    (SWriter.mk 1).writeBytes (Writer.mk [0xBF, 0x9F] [2, 1] 3) [0xF6]
      = .error "Attempt to write to CBOR object using inactive writer" ∧
    (Writer.mk [0xBF, 0x9F] [2, 1] 3).stack = (SWriter.mk 2).id :: 1 :: [] ∧
    (SWriter.mk 2).close (Writer.mk [0xBF, 0x9F] [2, 1] 3)
      = .ok ⟨[0xBF, 0x9F] ++ breakByte, 1 :: [], 3⟩ ∧
    (SWriter.mk 1).writeBytes ⟨[0xBF, 0x9F] ++ breakByte, 1 :: [], 3⟩ [0xF6]
      = .ok ⟨([0xBF, 0x9F] ++ breakByte) ++ [0xF6], 1 :: [], 3⟩ := by
  refine ⟨by decide, ?_, by decide, ?_, ?_⟩
  · exact (claim_C8_writer_stack (Writer.mk [0xBF, 0x9F] [2, 1] 3)
      (SWriter.mk 1) [0xF6]).1 (by decide)
  · exact ((claim_C8_writer_stack (Writer.mk [0xBF, 0x9F] [2, 1] 3)
      (SWriter.mk 2) [0xF6]).2 1 [] rfl).1
  · exact ((claim_C8_writer_stack (Writer.mk [0xBF, 0x9F] [2, 1] 3)
      (SWriter.mk 2) [0xF6]).2 1 [] rfl).2

/-- `check_and_seek` accepts any `write_int`-style header for the integer
majors, for any `uint64` magnitude — in particular magnitudes outside the
signed 64-bit range. -/
theorem seek_intHeader (major value : Nat) (pre post : Bytes) (fuel : Nat)
    (hm : major ≤ 1) (hv : value < 2 ^ 64) (hfuel : 1 ≤ fuel) :
    checkAndSeek fuel (pre ++ intHeader major value ++ post) pre.length =
      .ok (pre.length + (intHeader major value).length) := by
  obtain ⟨f, rfl⟩ : ∃ f, fuel = f + 1 := ⟨fuel - 1, by omega⟩
  simp only [checkAndSeek]
  rw [readAt_append_first pre _ _ _
    (intHeader_headD major value (by omega)) (intHeader_ne_nil _ _)]
  simp only [okBind]
  have hc := intCode_lt value
  rw [if_pos (by omega)]
  have hinfo : (major * 32 + intCode value) % 32
      = (intHeader major value).headD 0 % 32 := by
    rw [intHeader_headD major value (by omega)]
  rw [hinfo, readIntlike_intHeader major value pre post (by omega) hv]
  simp

/-- `as_int` rejects any magnitude at or above `2^63`. -/
theorem asInt_out_of_range (value : Nat) (hlo : 2 ^ 63 ≤ value)
    (hhi : value < 2 ^ 64) :
    asInt (intHeader 0 value) = .error "CBOR integer out of int64 range" := by
  unfold asInt
  have hh := intHeader_headD 0 value (by omega)
  have hc := intCode_lt value
  rw [readAt_zero _ (intHeader_ne_nil _ _)]
  simp only [okBind]
  rw [if_neg (by rw [hh]; omega),
    readIntlike_header_exact 0 value (by omega) hhi]
  simp only [okBind]
  rw [if_pos (by omega)]

/-- An integer whose magnitude exceeds the signed 64-bit range is accepted
by reader construction; only `as_int` rejects it. -/
theorem constructReader_out_of_range (value : Nat) (hlo : 2 ^ 63 ≤ value)
    (hhi : value < 2 ^ 64) :
    constructReader (intHeader 0 value) = .ok () ∧
    asInt (intHeader 0 value) =
      .error "CBOR integer out of int64 range" := by
  constructor
  · unfold constructReader mkReader readerCheck
    rw [if_neg (by
      intro hz
      exact intHeader_ne_nil 0 value (List.length_eq_zero.mp hz))]
    have hs := seek_intHeader 0 value [] [] ((intHeader 0 value).length + 1)
      (by omega) hhi (by omega)
    simp only [List.nil_append, List.append_nil, List.length_nil,
      Nat.zero_add] at hs
    rw [hs]
    simp only [okBind]
    rw [if_pos trivial]
  · exact asInt_out_of_range value hlo hhi

/-- C5, amended: constructing a `cbor::Reader` performs a full structural
walk that throws, at the point the walk reaches them, for: an undefined
value, a half- or single-precision float, a read past the extent of the
current slice, an unexpected break code, an unknown type code, and an
indefinite-length string whose inner chunk has a mismatched major type.
An integer outside the signed 64-bit range, however, is NOT rejected at
construction: the walk accepts its encoding (construction succeeds) and
the out-of-range failure is only raised by `as_int` when the value is
accessed. -/
theorem claim_C5_reader_validation (d : Bytes) (off fuel : Nat) :
    (d.length ≤ off → checkAndSeek (fuel + 1) d off =
      .error "invalid CBOR: trying to read past extents of current slice") ∧
    (off < d.length → d.getD off 0 = 0xF7 → checkAndSeek (fuel + 1) d off =
      .error "invalid CBOR: undefined value is not supported") ∧
    (off < d.length → d.getD off 0 = 0xF9 → checkAndSeek (fuel + 1) d off =
      .error "invalid CBOR: half-precision float is not supported") ∧
    (off < d.length → d.getD off 0 = 0xFA → checkAndSeek (fuel + 1) d off =
      .error "invalid CBOR: single-precision float is not supported") ∧
    (off < d.length → d.getD off 0 = 0xFF → checkAndSeek (fuel + 1) d off =
      .error "invalid CBOR: unexpected break") ∧
    (∀ b, off < d.length → d.getD off 0 = b → b / 32 = 7 →
      b % 32 ∉ ([20, 21, 22, 23, 25, 26, 27, 31] : List Nat) →
      checkAndSeek (fuel + 1) d off =
        .error "invalid CBOR: unknown type code") ∧
    (∀ t c, 1 ≤ fuel → off < d.length → d.getD off 0 = t * 32 + 31 →
      (t = 2 ∨ t = 3) → off + 1 < d.length → d.getD (off + 1) 0 = c →
      c ≠ 0xFF → c / 32 ≠ t →
      checkAndSeek (fuel + 1) d off =
        .error "invalid CBOR: illegal indefinite-length string component") ∧
    (∀ value, 2 ^ 63 ≤ value → value < 2 ^ 64 →
      constructReader (intHeader 0 value) = .ok () ∧
      asInt (intHeader 0 value) =
        .error "CBOR integer out of int64 range") := by
  refine ⟨?_, ?_, ?_, ?_, ?_, ?_, ?_, ?_⟩
  · intro hoff
    simp only [checkAndSeek]
    rw [show readAt d off = .error
        "invalid CBOR: trying to read past extents of current slice" from by
      unfold readAt
      rw [if_neg (by omega)]]
    rfl
  · intro hoff hb
    simp only [checkAndSeek]
    rw [show readAt d off = .ok 0xF7 from by
      unfold readAt
      rw [if_pos hoff, hb]]
    simp only [okBind]
    norm_num
  · intro hoff hb
    simp only [checkAndSeek]
    rw [show readAt d off = .ok 0xF9 from by
      unfold readAt
      rw [if_pos hoff, hb]]
    simp only [okBind]
    norm_num
  · intro hoff hb
    simp only [checkAndSeek]
    rw [show readAt d off = .ok 0xFA from by
      unfold readAt
      rw [if_pos hoff, hb]]
    simp only [okBind]
    norm_num
  · intro hoff hb
    simp only [checkAndSeek]
    rw [show readAt d off = .ok 0xFF from by
      unfold readAt
      rw [if_pos hoff, hb]]
    simp only [okBind]
    norm_num
  · intro b hoff hb h7 hinfo
    simp only [List.mem_cons, List.not_mem_nil, or_false, not_or] at hinfo
    obtain ⟨h20, h21, h22, h23, h25, h26, h27, h31⟩ := hinfo
    simp only [checkAndSeek]
    rw [show readAt d off = .ok b from by
      unfold readAt
      rw [if_pos hoff, hb]]
    simp only [okBind]
    rw [if_neg (by omega), if_neg (by omega), if_neg (by omega),
      if_neg (by omega), if_neg (by omega),
      if_neg (by intro hc; rcases hc with hc | hc | hc <;> omega),
      if_neg (by omega), if_neg (by omega), if_neg (by omega),
      if_neg (by omega), if_neg (by omega)]
  · intro t c hfuel hoff hb ht hoff2 hc hcff hct
    obtain ⟨g, rfl⟩ : ∃ g, fuel = g + 1 := ⟨fuel - 1, by omega⟩
    simp only [checkAndSeek]
    rw [show readAt d off = .ok (t * 32 + 31) from by
      unfold readAt
      rw [if_pos hoff, hb]]
    simp only [okBind]
    rw [if_neg (by rcases ht with rfl | rfl <;> omega),
      if_pos (by rcases ht with rfl | rfl <;> omega),
      if_pos (by rcases ht with rfl | rfl <;> omega)]
    simp only [strChunks]
    rw [show readAt d (off + 1) = .ok c from by
      unfold readAt
      rw [if_pos hoff2, hc]]
    simp only [okBind]
    rw [if_neg hcff, if_pos (by
      rcases ht with rfl | rfl <;> · intro hcontra; omega)]
  · intro value hlo hhi
    exact constructReader_out_of_range value hlo hhi

/-- C5 counterexample: the nine-byte encoding of `2^64 - 1` — an integer
outside the signed 64-bit range — is accepted by reader construction,
refuting the claim that construction never succeeds on such input; the
range error only arises from `as_int`. -/
theorem claim_C5_reader_validation_counterexample :
    constructReader [0x1B, 0xFF, 0xFF, 0xFF, 0xFF, 0xFF, 0xFF, 0xFF, 0xFF]
      = .ok () ∧
    asInt [0x1B, 0xFF, 0xFF, 0xFF, 0xFF, 0xFF, 0xFF, 0xFF, 0xFF]
      = .error "CBOR integer out of int64 range" := by
  have h := constructReader_out_of_range (2 ^ 64 - 1) (by norm_num)
    (by norm_num)
  have he : intHeader 0 (2 ^ 64 - 1)
      = [0x1B, 0xFF, 0xFF, 0xFF, 0xFF, 0xFF, 0xFF, 0xFF, 0xFF] := by decide
  rwa [he] at h

/-- C5 witness: each rejected shape evaluated on a concrete input, and the
out-of-range acceptance at `2^63`. -/
theorem claim_C5_reader_validation_witness :
    checkAndSeek 3 [0xF7] 0 =
      .error "invalid CBOR: undefined value is not supported" ∧
    checkAndSeek 3 [0xF9, 0, 0] 0 =
      .error "invalid CBOR: half-precision float is not supported" ∧
    checkAndSeek 3 [0xFA, 0, 0, 0, 0] 0 =
      .error "invalid CBOR: single-precision float is not supported" ∧
    checkAndSeek 3 ([] : Bytes) 0 =
      .error "invalid CBOR: trying to read past extents of current slice" ∧
    checkAndSeek 3 [0xFF] 0 = .error "invalid CBOR: unexpected break" ∧
    checkAndSeek 3 [0xFC] 0 = .error "invalid CBOR: unknown type code" ∧
    checkAndSeek 3 [0x7F, 0x41, 0x61, 0xFF] 0 =
      .error "invalid CBOR: illegal indefinite-length string component" ∧
    (constructReader (intHeader 0 (2 ^ 63)) = .ok () ∧
      asInt (intHeader 0 (2 ^ 63)) =
        .error "CBOR integer out of int64 range") := by
  refine ⟨?_, ?_, ?_, ?_, ?_, ?_, ?_, ?_⟩
  · exact (claim_C5_reader_validation [0xF7] 0 2).2.1 (by decide) (by decide)
  · exact (claim_C5_reader_validation [0xF9, 0, 0] 0 2).2.2.1 (by decide)
      (by decide)
  · exact (claim_C5_reader_validation [0xFA, 0, 0, 0, 0] 0 2).2.2.2.1
      (by decide) (by decide)
  · exact (claim_C5_reader_validation [] 0 2).1 (by decide)
  · exact (claim_C5_reader_validation [0xFF] 0 2).2.2.2.2.1 (by decide)
      (by decide)
  · exact (claim_C5_reader_validation [0xFC] 0 2).2.2.2.2.2.1 0xFC
      (by decide) (by decide) (by decide) (by decide)
  · exact (claim_C5_reader_validation [0x7F, 0x41, 0x61, 0xFF] 0 2).2.2.2.2.2.2.1
      3 0x41 (by decide) (by decide) (by decide) (by decide) (by decide)
      (by decide) (by decide) (by decide)
  · exact (claim_C5_reader_validation [] 0 2).2.2.2.2.2.2.2 (2 ^ 63)
      (by decide) (by decide)

/-- `bytesLt` is irreflexive. -/
theorem bytesLt_irrefl (a : Bytes) : bytesLt a a = false := by
  induction a with
  | nil => rfl
  | cons x xs ih => simp [bytesLt, ih]

/-- Two byte strings neither of which is below the other are equal
(`std::map` key equivalence). -/
theorem bytesLt_eq_of_not (a b : Bytes) (h1 : bytesLt a b = false)
    (h2 : bytesLt b a = false) : a = b := by
  induction a generalizing b with
  | nil =>
    cases b with
    | nil => rfl
    | cons y ys => simp [bytesLt] at h1
  | cons x xs ih =>
    cases b with
    | nil => simp [bytesLt] at h2
    | cons y ys =>
      simp only [bytesLt] at h1 h2
      by_cases hxy : x < y
      · rw [if_pos hxy] at h1
        exact absurd h1 (by simp)
      · by_cases hyx : y < x
        · rw [if_pos hyx] at h2
          exact absurd h2 (by simp)
        · rw [if_neg hxy, if_neg hyx] at h1
          have hx : x = y := by omega
          rw [hx, ih ys h1 (by rw [if_neg hyx, if_neg hxy] at h2; exact h2)]

/-- `bytesLt` is transitive. -/
theorem bytesLt_trans (a b c : Bytes) (h1 : bytesLt a b = true)
    (h2 : bytesLt b c = true) : bytesLt a c = true := by
  induction a generalizing b c with
  | nil =>
    cases b with
    | nil => simp [bytesLt] at h1
    | cons y ys =>
      cases c with
      | nil => simp [bytesLt] at h2
      | cons z zs => rfl
  | cons x xs ih =>
    cases b with
    | nil => simp [bytesLt] at h1
    | cons y ys =>
      cases c with
      | nil => simp [bytesLt] at h2
      | cons z zs =>
        simp only [bytesLt] at h1 h2 ⊢
        by_cases hxy : x < y
        · rw [if_pos hxy] at h1
          by_cases hyz : y < z
          · rw [if_pos (by omega)]
          · by_cases hzy : z < y
            · rw [if_neg hyz, if_pos hzy] at h2
              exact absurd h2 (by simp)
            · rw [if_pos (by omega)]
        · by_cases hyx : y < x
          · rw [if_neg hxy, if_pos hyx] at h1
            exact absurd h1 (by simp)
          · rw [if_neg hxy, if_neg hyx] at h1
            by_cases hyz : y < z
            · rw [if_pos (by omega)]
            · by_cases hzy : z < y
              · rw [if_neg hyz, if_pos hzy] at h2
                exact absurd h2 (by simp)
              · rw [if_neg hyz, if_neg hzy] at h2
                rw [if_neg (by omega), if_neg (by omega)]
                exact ih ys zs h1 h2

/-- Lookup on a cons cell of the model `std::map`. -/
theorem mapAt_cons (k1 v1 k : Bytes) (rest : MapReader) :
    mapAt ((k1, v1) :: rest) k = if k1 = k then some v1 else mapAt rest k := by
  by_cases h : k1 = k
  · simp [mapAt, List.find?_cons_of_pos, h]
  · simp [mapAt, List.find?_cons_of_neg, h]

/-- Every member of `mapInsert k v m` is the inserted pair or a member of
`m`. -/
theorem mapInsert_mem (k v : Bytes) (m : MapReader) (x : Bytes × Bytes)
    (hx : x ∈ mapInsert k v m) : x = (k, v) ∨ x ∈ m := by
  induction m with
  | nil => simpa [mapInsert] using hx
  | cons kv1 rest ih =>
    obtain ⟨k1, v1⟩ := kv1
    simp only [mapInsert] at hx
    split_ifs at hx with h1 h2
    · rcases List.mem_cons.mp hx with h | h
      · exact Or.inl h
      · exact Or.inr h
    · rcases List.mem_cons.mp hx with h | h
      · exact Or.inr (List.mem_cons.mpr (Or.inl h))
      · rcases ih h with h' | h'
        · exact Or.inl h'
        · exact Or.inr (List.mem_cons.mpr (Or.inr h'))
    · exact Or.inr hx

/-- Strict `bytesLt`-sortedness of the model `std::map`. -/
abbrev mrSorted (m : MapReader) : Prop :=
  m.Pairwise fun a b => bytesLt a.1 b.1 = true

/-- `std::map::insert` preserves sortedness. -/
theorem mapInsert_sorted (k v : Bytes) (m : MapReader) (hs : mrSorted m) :
    mrSorted (mapInsert k v m) := by
  induction m with
  | nil => simp [mapInsert, mrSorted]
  | cons kv1 rest ih =>
    obtain ⟨k1, v1⟩ := kv1
    obtain ⟨hbelow, hrest⟩ := List.pairwise_cons.mp hs
    simp only [mapInsert]
    split_ifs with h1 h2
    · refine List.pairwise_cons.mpr ⟨?_, List.pairwise_cons.mpr ⟨hbelow, hrest⟩⟩
      intro x hx
      rcases List.mem_cons.mp hx with rfl | hxr
      · exact h1
      · exact bytesLt_trans k k1 x.1 h1 (hbelow x hxr)
    · refine List.pairwise_cons.mpr ⟨?_, ih hrest⟩
      intro x hx
      rcases mapInsert_mem k v rest x hx with rfl | hxr
      · exact h2
      · exact hbelow x hxr
    · exact List.pairwise_cons.mpr ⟨hbelow, hrest⟩

/-- A successful lookup names a pair present in the map. -/
theorem mapAt_some_key_mem (m : MapReader) (k w : Bytes)
    (h : mapAt m k = some w) : (k, w) ∈ m := by
  induction m with
  | nil => simp [mapAt] at h
  | cons kv1 rest ih =>
    obtain ⟨k1, v1⟩ := kv1
    rw [mapAt_cons] at h
    by_cases hk1 : k1 = k
    · rw [if_pos hk1] at h
      have hv := Option.some.inj h
      exact List.mem_cons.mpr (Or.inl (by rw [← hk1, ← hv]))
    · rw [if_neg hk1] at h
      exact List.mem_cons.mpr (Or.inr (ih h))

/-- `std::map::insert` never changes the value bound to an already-present
key. -/
theorem mapAt_mapInsert_some (k' v k : Bytes) (m : MapReader) (w : Bytes)
    (hs : mrSorted m) (h : mapAt m k = some w) :
    mapAt (mapInsert k' v m) k = some w := by
  induction m with
  | nil => simp [mapAt] at h
  | cons kv1 rest ih =>
    obtain ⟨k1, v1⟩ := kv1
    obtain ⟨hbelow, hrest⟩ := List.pairwise_cons.mp hs
    rw [mapAt_cons] at h
    simp only [mapInsert]
    by_cases hk1 : k1 = k
    · rw [if_pos hk1] at h
      have hw := Option.some.inj h
      split_ifs with h1 h2
      · have hne : k' ≠ k := by
          intro he
          rw [he, hk1] at h1
          rw [bytesLt_irrefl] at h1
          exact absurd h1 (by simp)
        rw [mapAt_cons, if_neg hne, mapAt_cons, if_pos hk1, hw]
      · rw [mapAt_cons, if_pos hk1, hw]
      · rw [mapAt_cons, if_pos hk1, hw]
    · rw [if_neg hk1] at h
      have hmem := mapAt_some_key_mem rest k w h
      have hk1k : bytesLt k1 k = true := hbelow (k, w) hmem
      split_ifs with h1 h2
      · have hne : k' ≠ k := by
          intro he
          subst he
          have := bytesLt_trans k' k1 k' h1 hk1k
          rw [bytesLt_irrefl] at this
          exact absurd this (by simp)
        rw [mapAt_cons, if_neg hne, mapAt_cons, if_neg hk1, h]
      · rw [mapAt_cons, if_neg hk1]
        exact ih hrest h
      · rw [mapAt_cons, if_neg hk1, h]

/-- Inserting into a map where the key is absent binds the key exactly when
it is the looked-up one. -/
theorem mapAt_mapInsert_none (k' v k : Bytes) (m : MapReader)
    (h : mapAt m k = none) :
    mapAt (mapInsert k' v m) k = if k' = k then some v else none := by
  induction m with
  | nil =>
    simp only [mapInsert]
    rw [mapAt_cons]
    by_cases he : k' = k
    · rw [if_pos he, if_pos he]
    · rw [if_neg he, if_neg he]
      simp [mapAt]
  | cons kv1 rest ih =>
    obtain ⟨k1, v1⟩ := kv1
    rw [mapAt_cons] at h
    by_cases hk1 : k1 = k
    · rw [if_pos hk1] at h
      exact absurd h (by simp)
    · rw [if_neg hk1] at h
      simp only [mapInsert]
      by_cases h1 : bytesLt k' k1 = true
      · rw [if_pos h1, mapAt_cons]
        by_cases he : k' = k
        · rw [if_pos he, if_pos he]
        · rw [if_neg he, if_neg he, mapAt_cons, if_neg hk1, h]
      · rw [if_neg h1]
        by_cases h2 : bytesLt k1 k' = true
        · rw [if_pos h2, mapAt_cons, if_neg hk1]
          exact ih h
        · rw [if_neg h2]
          have he : k' = k1 :=
            bytesLt_eq_of_not k' k1 (by simpa using h1) (by simpa using h2)
          rw [if_neg (by rw [he]; exact hk1), mapAt_cons, if_neg hk1, h]

/-- Folding `insert` over the entries: a key already bound keeps its value;
an absent key ends up bound to its EARLIEST occurrence in the entry
list. -/
theorem mapAt_insertAll (kvs : EntryList) (m : MapReader) (k : Bytes)
    (hs : mrSorted m) :
    mapAt (insertAll m kvs) k = (mapAt m k).elim (firstVal kvs k) some := by
  cases kvs with
  | nil =>
    simp only [insertAll]
    cases h : mapAt m k
    · simp [firstVal]
    · simp
  | cons k1 v tl =>
    simp only [insertAll]
    rw [mapAt_insertAll tl (mapInsert k1 (encodeValue v) m) k
      (mapInsert_sorted _ _ _ hs)]
    cases h : mapAt m k with
    | some w =>
      rw [mapAt_mapInsert_some k1 (encodeValue v) k m w hs h]
      simp
    | none =>
      rw [mapAt_mapInsert_none k1 (encodeValue v) k m h]
      by_cases he : k1 = k
      · rw [if_pos he]
        simp [firstVal, he]
      · rw [if_neg he]
        simp [firstVal, he]

/-- The indefinite-length loop of `as_map` over an encoded entry list with
arbitrary (possibly duplicate, possibly unordered) keys folds
`std::map::insert` over the entries in encounter order. -/
theorem mapItemsDup (kvs : EntryList) (pre post : Bytes) (fuel : Nat)
    (m : MapReader) (hwf : wfEntriesDup kvs = true)
    (hfuel : (encodeEntries kvs).length + 1 < fuel) :
    mapItemsIndef fuel (pre ++ encodeEntries kvs ++ 0xFF :: post) pre.length m
      = .ok (insertAll m kvs) := by
  obtain ⟨f, rfl⟩ : ∃ f, fuel = f + 1 := ⟨fuel - 1, by omega⟩
  cases kvs with
  | nil =>
    simp only [encodeEntries, mapItemsIndef, insertAll]
    have hd : pre ++ [] ++ 0xFF :: post = pre ++ [0xFF] ++ post := by simp
    rw [hd, readAt_append_first pre [0xFF] post 0xFF rfl (by simp),
      okBind, if_pos rfl]
  | cons k v tl =>
    have hv1 := encodeValue_length_pos v
    have hk1 := writeString_length_pos k
    have hlen : (encodeEntries (.cons k v tl)).length
        = (writeString k).length + (encodeValue v).length
          + (encodeEntries tl).length := by
      simp only [encodeEntries, List.length_append]
    simp only [wfEntriesDup, Bool.and_eq_true, decide_eq_true_eq] at hwf
    obtain ⟨⟨⟨hka, hkl⟩, hwv⟩, htl⟩ := hwf
    simp only [mapItemsIndef]
    have hd : pre ++ encodeEntries (.cons k v tl) ++ 0xFF :: post
        = pre ++ writeString k
          ++ (encodeValue v ++ (encodeEntries tl ++ 0xFF :: post)) := by
      simp [encodeEntries, List.append_assoc]
    rw [hd]
    rw [readAt_append_first pre (writeString k) _ (3 * 32 + intCode k.length)
      (writeString_headD k) (writeString_ne_nil _)]
    simp only [okBind]
    have hcode := intCode_lt k.length
    rw [if_neg (by omega)]
    rw [readMapItem_encode k v pre (encodeEntries tl ++ 0xFF :: post) f m
      hkl hwv (by omega) (by omega)]
    simp only [okBind]
    have hd4 : pre ++ writeString k
          ++ (encodeValue v ++ (encodeEntries tl ++ 0xFF :: post))
        = (pre ++ writeString k ++ encodeValue v)
          ++ encodeEntries tl ++ 0xFF :: post := by
      simp [List.append_assoc]
    have hoff4 : pre.length + (writeString k).length + (encodeValue v).length
        = (pre ++ writeString k ++ encodeValue v).length := by
      simp only [List.length_append]
    rw [hd4, hoff4, mapItemsDup tl (pre ++ writeString k ++ encodeValue v)
      post f (mapInsert k (encodeValue v) m) htl (by omega)]
    simp [insertAll]

/-- `as_map` on an encoded map with arbitrary keys returns the
`insert`-fold of its entries. -/
theorem asMapDup (kvs : EntryList) (fuel : Nat)
    (hwf : wfEntriesDup kvs = true)
    (hfuel : (encodeEntries kvs).length + 2 ≤ fuel) :
    asMap fuel (encodeValue (.vmap kvs)) = .ok (insertAll [] kvs) := by
  unfold asMap
  have hhead : (encodeValue (.vmap kvs)).headD 0 = 0xBF := by
    simp only [encodeValue]
    rw [headD_append_left _ _ (by simp [mapHeader]),
      headD_append_left _ _ (by simp [mapHeader])]
    rfl
  rw [readAt_zero _ (encodeValue_ne_nil _), hhead]
  simp only [okBind]
  rw [if_neg (by norm_num), if_pos (by norm_num)]
  have hd : encodeValue (.vmap kvs)
      = [0xBF] ++ encodeEntries kvs ++ 0xFF :: ([] : Bytes) := by
    simp [encodeValue, mapHeader, breakByte]
  have hoff : (1 : Nat) = ([0xBF] : Bytes).length := by simp
  rw [hd, hoff, mapItemsDup kvs [0xBF] [] fuel [] hwf (by omega)]

/-- C7, amended: on an encoded CBOR map with duplicate string keys,
`Reader::as_map()` folds `std::map::insert` over the entries in encounter
order, and `insert` keeps the existing binding — so a duplicated key is
bound to the value of the FIRST (earliest-occurring) entry in the
encoding, not the last. -/
theorem claim_C7_as_map_duplicates (kvs : EntryList) (fuel : Nat) (k : Bytes)
    (hwf : wfEntriesDup kvs = true)
    (hfuel : (encodeEntries kvs).length + 2 ≤ fuel) :
    asMap fuel (encodeValue (.vmap kvs)) = .ok (insertAll [] kvs) ∧
    mapAt (insertAll [] kvs) k = firstVal kvs k := by
  refine ⟨asMapDup kvs fuel hwf hfuel, ?_⟩
  have h := mapAt_insertAll kvs [] k List.Pairwise.nil
  simpa [mapAt] using h

/-- C7 counterexample: a map encoding the key `"a"` twice, first bound to
the integer 1 and then to 2; `as_map` returns `"a"` bound to the slice
`[1]` — the encoding of the FIRST value — while the last entry's value
encodes to `[2]`, refuting "last wins". -/
theorem claim_C7_as_map_duplicates_counterexample :
    asMap 20 (encodeValue
        (.vmap (.cons [97] (.vint 1) (.cons [97] (.vint 2) .nil))))
      = .ok [([97], [1])] ∧
    encodeValue (.vint 2) = [2] ∧ ([1] : Bytes) ≠ [2] := by
  refine ⟨?_, by decide, by decide⟩
  have h := asMapDup (.cons [97] (.vint 1) (.cons [97] (.vint 2) .nil)) 20
    (by decide) (by decide)
  have he : insertAll [] (.cons [97] (.vint 1) (.cons [97] (.vint 2) .nil))
      = [([97], [1])] := by decide
  rwa [he] at h

/-- C7 witness: the amended theorem evaluated on the duplicate-key map
`{"a": 1, "a": 2}`. -/
theorem claim_C7_as_map_duplicates_witness :
    asMap 20 (encodeValue
        (.vmap (.cons [97] (.vint 1) (.cons [97] (.vint 2) .nil))))
      = .ok (insertAll [] (.cons [97] (.vint 1) (.cons [97] (.vint 2) .nil))) ∧
    mapAt (insertAll [] (.cons [97] (.vint 1) (.cons [97] (.vint 2) .nil))) [97]
      = firstVal (.cons [97] (.vint 1) (.cons [97] (.vint 2) .nil)) [97] :=
  claim_C7_as_map_duplicates
    (.cons [97] (.vint 1) (.cons [97] (.vint 2) .nil)) 20 [97]
    (by decide) (by decide)

end Cbor

namespace Base

/-- C9: `is_well_formed()` returns `true` exactly when
`check_well_formed()` (a `find_reachable` pass over a fresh `PointerMap`
followed by `check_complete`) completes without throwing; a
`NotWellFormed` failure is converted to `false` and not propagated; any
other exception propagates out of `is_well_formed()` uncaught. -/
theorem claim_C9_is_well_formed (c : Completable) :
    (c.is_well_formed = .ok true ↔ c.check_well_formed = .ok ()) ∧
    (∀ msg, c.check_well_formed = .error (.notWellFormed msg) →
      c.is_well_formed = .ok false) ∧
    (∀ msg, c.check_well_formed = .error (.other msg) →
      c.is_well_formed = .error (.other msg)) := by
  unfold Completable.is_well_formed
  refine ⟨?_, ?_, ?_⟩
  · cases hc : c.check_well_formed with
    | ok u => simp
    | error e => cases e <;> simp
  · intro msg hmsg
    rw [hmsg]
  · intro msg hmsg
    rw [hmsg]

/-- C9 witness: concrete `Completable`s — one failing with
`NotWellFormed` (converted to `false`), one succeeding, and one throwing
another exception (propagated). -/
theorem claim_C9_is_well_formed_witness :
    sampleIncomplete.is_well_formed = .ok false ∧
    Completable.is_well_formed ⟨fun m => .ok m, fun _ => .ok ()⟩ = .ok true ∧
    sampleThrowing.is_well_formed = .error (.other "bad_alloc") := by
  refine ⟨?_, ?_, ?_⟩
  · exact (claim_C9_is_well_formed sampleIncomplete).2.1 "incomplete" rfl
  · exact (claim_C9_is_well_formed
      ⟨fun m => .ok m, fun _ => .ok ()⟩).1.mpr rfl
  · exact (claim_C9_is_well_formed sampleThrowing).2.2 "bad_alloc" rfl

/-- A successful `add_raw` sequence over fresh identities registers them
with numbers counted up from the current size. -/
theorem addAll_spec (ptrs : List Nat) (m : PointerMap) (name : String)
    (hfresh : ∀ p ∈ ptrs, m.contains p = false) (hnodup : ptrs.Nodup) :
    m.addAll ptrs name = .ok ⟨m.entries ++ numberFrom m.entries.length ptrs⟩ := by
  induction ptrs generalizing m with
  | nil => simp [PointerMap.addAll, numberFrom]
  | cons p rest ih =>
    have hadd : m.add_raw p name
        = .ok (m.entries.length, ⟨m.entries ++ [(p, m.entries.length)]⟩) := by
      unfold PointerMap.add_raw
      rw [if_neg (by simp [hfresh p (List.mem_cons_self _ _)])]
    simp only [PointerMap.addAll, hadd, okBind]
    have hfresh2 : ∀ q ∈ rest,
        (PointerMap.mk (m.entries ++ [(p, m.entries.length)])).contains q
          = false := by
      intro q hq
      have hqp : q ≠ p := by
        intro hqp
        rw [hqp] at hq
        exact (List.nodup_cons.mp hnodup).1 hq
      have hmq := hfresh q (List.mem_cons_of_mem _ hq)
      simp only [PointerMap.contains, List.any_append] at hmq ⊢
      simp [hmq, Ne.symm hqp]
    rw [ih ⟨m.entries ++ [(p, m.entries.length)]⟩ hfresh2
      (List.nodup_cons.mp hnodup).2]
    simp [numberFrom, List.append_assoc]

/-- C4: `PointerMap::add_raw` assigns a first-visited identity the
sequence number `map.size()` — the number of identities registered before
it, so successive registrations get 0, 1, 2, … in visit order — and
registering the same identity twice fails with `NotWellFormed` whose
message reports a duplicate node. -/
theorem claim_C4_pointer_map_sequence (m : PointerMap) (ptr : Nat)
    (name : String) :
    (∀ seq m2, m.add_raw ptr name = .ok (seq, m2) →
      seq = m.entries.length ∧ m2.entries = m.entries ++ [(ptr, seq)]) ∧
    (m.contains ptr = true →
      m.add_raw ptr name = .error (.notWellFormed
        ("Duplicate node of type " ++ name ++ "at address " ++ toString ptr
          ++ " found in tree"))) ∧
    (∀ ptrs : List Nat, ptrs.Nodup →
      PointerMap.empty.addAll ptrs name = .ok ⟨numberFrom 0 ptrs⟩) := by
  refine ⟨?_, ?_, ?_⟩
  · intro seq m2 hok
    unfold PointerMap.add_raw at hok
    by_cases hc : m.contains ptr
    · rw [if_pos hc] at hok
      exact absurd hok (by simp)
    · rw [if_neg hc] at hok
      simp only [Except.ok.injEq, Prod.mk.injEq] at hok
      obtain ⟨h1, h2⟩ := hok
      exact ⟨h1.symm, by rw [← h2, ← h1]⟩
  · intro hc
    unfold PointerMap.add_raw
    rw [if_pos hc]
  · intro ptrs hnodup
    have h := addAll_spec ptrs PointerMap.empty name
      (fun p _ => by simp [PointerMap.contains, PointerMap.empty]) hnodup
    simpa [PointerMap.empty] using h

/-- C4 witness: a fresh registration gets the next number, a duplicate
registration fails with the duplicate-node message, and registering three
distinct identities from an empty map numbers them 0, 1, 2. -/
theorem claim_C4_pointer_map_sequence_witness :
    (1 = (PointerMap.mk [(5, 0)]).entries.length ∧
      (PointerMap.mk [(5, 0), (7, 1)]).entries
        = (PointerMap.mk [(5, 0)]).entries ++ [(7, 1)]) ∧
    (PointerMap.mk [(5, 0)]).add_raw 5 "Node" = .error (.notWellFormed
      ("Duplicate node of type " ++ "Node" ++ "at address " ++ toString 5
        ++ " found in tree")) ∧
    PointerMap.empty.addAll [3, 5, 9] "Node" = .ok ⟨numberFrom 0 [3, 5, 9]⟩ := by
  refine ⟨?_, ?_, ?_⟩
  · exact (claim_C4_pointer_map_sequence (PointerMap.mk [(5, 0)]) 7 "Node").1
      1 (PointerMap.mk [(5, 0), (7, 1)]) (by decide)
  · exact (claim_C4_pointer_map_sequence (PointerMap.mk [(5, 0)]) 5 "Node").2.1
      (by decide)
  · exact (claim_C4_pointer_map_sequence PointerMap.empty 3 "Node").2.2
      [3, 5, 9] (by decide)

end Base

namespace Gen

/-- A successful `extractFirst` splits the child list around the first
field carrying the requested name. -/
theorem extractFirst_some (name : String) (children : List GField)
    (f : GField) (rest' : List GField)
    (h : extractFirst name children = some (f, rest')) :
    ∃ l1 l2, children = l1 ++ f :: l2 ∧ rest' = l1 ++ l2
      ∧ (∀ g ∈ l1, ¬g.name = name) ∧ f.name = name := by
  induction children generalizing f rest' with
  | nil => simp [extractFirst] at h
  | cons g gs ih =>
    simp only [extractFirst] at h
    by_cases hg : g.name = name
    · rw [if_pos hg] at h
      rw [Option.some.injEq, Prod.mk.injEq] at h
      obtain ⟨h1, h2⟩ := h
      subst h1
      subst h2
      exact ⟨[], gs, rfl, rfl, by simp, hg⟩
    · rw [if_neg hg] at h
      cases he : extractFirst name gs with
      | none =>
        rw [he] at h
        simp at h
      | some fr =>
        rw [he] at h
        simp only [Option.map_some'] at h
        rw [Option.some.injEq, Prod.mk.injEq] at h
        obtain ⟨h1, h2⟩ := h
        obtain ⟨l1, l2, hc, hr, hl1, hf⟩ := ih fr.1 fr.2 (by rw [he])
        refine ⟨g :: l1, l2, ?_, ?_, ?_, ?_⟩
        · rw [hc, ← h1]
          rfl
        · rw [← h2, hr]
          rfl
        · intro x hx
          rcases List.mem_cons.mp hx with rfl | hxl
          · exact hg
          · exact hl1 x hxl
        · rw [← h1]
          exact hf

/-- A failing `extractFirst` means no child carries the name. -/
theorem extractFirst_none (name : String) (children : List GField)
    (h : extractFirst name children = none) :
    name ∉ children.map GField.name := by
  induction children with
  | nil => simp
  | cons g gs ih =>
    simp only [extractFirst] at h
    by_cases hg : g.name = name
    · rw [if_pos hg] at h
      simp at h
    · rw [if_neg hg] at h
      cases he : extractFirst name gs with
      | some fr =>
        rw [he] at h
        simp at h
      | none =>
        simp only [List.map_cons, List.mem_cons]
        intro hc
        rcases hc with hc | hc
        · exact hg hc.symm
        · exact ih he hc

/-- `find?` locates the field at the split point when everything before it
misses the name. -/
theorem find?_name_eq (l1 l2 : List GField) (f : GField) (nm : String)
    (hl1 : ∀ g ∈ l1, ¬g.name = nm) (hf : f.name = nm) :
    ((l1 ++ f :: l2).find? fun g => g.name = nm) = some f := by
  induction l1 with
  | nil => simp [List.find?_cons_of_pos, hf]
  | cons g gs ih =>
    rw [List.cons_append,
      List.find?_cons_of_neg _ (by simp [hl1 g (List.mem_cons_self _ _)])]
    exact ih fun x hx => hl1 x (List.mem_cons.mpr (Or.inr hx))

/-- `find?` for a different name skips the extracted field. -/
theorem find?_name_skip (l1 l2 : List GField) (f : GField) (nm : String)
    (hf : ¬f.name = nm) :
    ((l1 ++ f :: l2).find? fun g => g.name = nm)
      = ((l1 ++ l2).find? fun g => g.name = nm) := by
  induction l1 with
  | nil => simp [List.find?_cons_of_neg, hf]
  | cons g gs ih =>
    by_cases hg : g.name = nm
    · simp [List.find?_cons_of_pos, hg]
    · simp only [List.cons_append]
      rw [List.find?_cons_of_neg _ (by simpa using hg),
        List.find?_cons_of_neg _ (by simpa using hg)]
      exact ih

/-- Collecting `find?` hits over names never equal to the extracted
field's name ignores that field. -/
theorem filterMap_find?_skip (rest : List String) (l1 l2 : List GField)
    (f : GField) (hf : ∀ nm ∈ rest, ¬f.name = nm) :
    rest.filterMap (fun nm => (l1 ++ f :: l2).find? fun g => g.name = nm)
      = rest.filterMap (fun nm => (l1 ++ l2).find? fun g => g.name = nm) := by
  induction rest with
  | nil => rfl
  | cons nm tl ih =>
    rw [List.filterMap_cons, List.filterMap_cons,
      find?_name_skip l1 l2 f nm (hf nm (List.mem_cons_self _ _))]
    have htl := ih fun x hx => hf x (List.mem_cons.mpr (Or.inr hx))
    cases (l1 ++ l2).find? fun g => g.name = nm with
    | none => exact htl
    | some b => exact congrArg (b :: ·) htl

/-- The reorder loop of `Node::all_fields` on names that all resolve:
named fields in listed order, then the unnamed leftovers in declared
order. -/
theorem reorder_ok (order : List String) (children reordered : List GField)
    (hcov : ∀ nm ∈ order, nm ∈ children.map GField.name)
    (hord : order.Nodup)
    (hch : (children.map GField.name).Nodup) :
    reorderFields order children reordered =
      .ok (reordered
        ++ order.filterMap (fun nm => children.find? fun g => g.name = nm)
        ++ children.filter fun g => decide (g.name ∉ order)) := by
  induction order generalizing children reordered with
  | nil => simp [reorderFields]
  | cons name rest ih =>
    have hmem : name ∈ children.map GField.name :=
      hcov name (List.mem_cons_self _ _)
    cases he : extractFirst name children with
    | none => exact absurd hmem (extractFirst_none name children he)
    | some fr =>
      obtain ⟨f, rest'⟩ := fr
      obtain ⟨l1, l2, hc, hr, hl1, hf⟩ :=
        extractFirst_some name children f rest' he
      subst hc
      subst hr
      have hords := List.nodup_cons.mp hord
      have hname_notin_rest : name ∉ rest := hords.1
      have hch' : ((l1 ++ l2).map GField.name).Nodup := by
        refine List.Nodup.sublist ?_ hch
        rw [List.map_append, List.map_append, List.map_cons]
        exact List.Sublist.append_left (List.sublist_cons_self _ _) _
      have hname_not_l2 : ∀ g ∈ l2, ¬g.name = name := by
        intro g hg hgname
        rw [List.map_append, List.map_cons] at hch
        have hnd2 := (List.nodup_append.mp hch).2.1
        have hno := (List.nodup_cons.mp hnd2).1
        exact hno (by rw [hf, ← hgname]; exact List.mem_map_of_mem _ hg)
      have hcov' : ∀ nm ∈ rest, nm ∈ (l1 ++ l2).map GField.name := by
        intro nm hnm
        have h0 := hcov nm (List.mem_cons.mpr (Or.inr hnm))
        rw [List.map_append, List.map_cons] at h0
        rw [List.map_append]
        have hne : nm ≠ name := fun hcontra =>
          hname_notin_rest (hcontra ▸ hnm)
        rcases List.mem_append.mp h0 with h' | h'
        · exact List.mem_append.mpr (Or.inl h')
        · rcases List.mem_cons.mp h' with h'' | h''
          · exact absurd (h''.trans hf) hne
          · exact List.mem_append.mpr (Or.inr h'')
      simp only [reorderFields, he]
      rw [ih (l1 ++ l2) (reordered ++ [f]) hcov' hords.2 hch']
      have hfm : (name :: rest).filterMap
            (fun nm => (l1 ++ f :: l2).find? fun g => g.name = nm)
          = f :: rest.filterMap
            (fun nm => (l1 ++ l2).find? fun g => g.name = nm) := by
        rw [List.filterMap_cons, find?_name_eq l1 l2 f name hl1 hf,
          filterMap_find?_skip rest l1 l2 f
            (fun nm hnm hcontra =>
              hname_notin_rest ((hf.symm.trans hcontra) ▸ hnm))]
      have hfl : ((l1 ++ f :: l2).filter fun g =>
            decide (g.name ∉ name :: rest))
          = (l1 ++ l2).filter fun g => decide (g.name ∉ rest) := by
        rw [List.filter_append, List.filter_append,
          List.filter_cons_of_neg (by simp [hf])]
        congr 1
        · exact List.filter_congr fun g hg => decide_eq_decide.mpr
            (by simp [List.mem_cons, hl1 g hg])
        · exact List.filter_congr fun g hg => decide_eq_decide.mpr
            (by simp [List.mem_cons, hname_not_l2 g hg])
      rw [hfm, hfl]
      simp [List.append_assoc]

/-- The reorder loop fails when some listed name matches no field. -/
theorem reorder_error (order : List String) (children reordered : List GField)
    (nm : String) (hmem : nm ∈ order)
    (habs : nm ∉ children.map GField.name) :
    ∃ bad, reorderFields order children reordered
      = .error ("Unknown field in field order: " ++ bad) := by
  induction order generalizing children reordered with
  | nil => exact absurd hmem (List.not_mem_nil nm)
  | cons name rest ih =>
    cases he : extractFirst name children with
    | none =>
      refine ⟨name, ?_⟩
      simp only [reorderFields, he]
    | some fr =>
      obtain ⟨f, rest'⟩ := fr
      obtain ⟨l1, l2, hc, hr, hl1, hf⟩ :=
        extractFirst_some name children f rest' he
      have hnm_ne : nm ≠ name := by
        intro hceq
        subst hceq
        apply habs
        rw [hc, List.map_append, List.map_cons]
        exact List.mem_append.mpr (Or.inr (List.mem_cons.mpr (Or.inl hf.symm)))
      have hmem' : nm ∈ rest := by
        rcases List.mem_cons.mp hmem with hc' | hc'
        · exact absurd hc' hnm_ne
        · exact hc'
      have habs' : nm ∉ rest'.map GField.name := by
        intro hcontra
        apply habs
        rw [hr, List.map_append] at hcontra
        rw [hc, List.map_append, List.map_cons]
        rcases List.mem_append.mp hcontra with h' | h'
        · exact List.mem_append.mpr (Or.inl h')
        · exact List.mem_append.mpr (Or.inr (List.mem_cons.mpr (Or.inr h')))
      simp only [reorderFields, he]
      exact ih rest' (reordered ++ [f]) hmem' habs'

/-- C10: with a non-empty `reorder` declaration, `Node::all_fields`
resolves to exactly the named fields in listed order followed by the
omitted fields in their original declared order; a listed name matching
no field makes the generator fail with the unknown-field error. -/
theorem claim_C10_field_order (fields pf : List GField)
    (order : List String) (p : GNode) (hp : allFields p = .ok pf)
    (hne : order ≠ []) (hord : order.Nodup)
    (hch : ((fields ++ pf).map GField.name).Nodup) :
    ((∀ nm ∈ order, nm ∈ (fields ++ pf).map GField.name) →
      allFields (.mk fields order (some p)) =
        .ok (order.filterMap
            (fun nm => (fields ++ pf).find? fun g => g.name = nm)
          ++ (fields ++ pf).filter fun g => decide (g.name ∉ order))) ∧
    (∀ nm ∈ order, nm ∉ (fields ++ pf).map GField.name →
      ∃ bad, allFields (.mk fields order (some p)) =
        .error ("Unknown field in field order: " ++ bad)) := by
  have hbase : allFields (.mk fields order (some p))
      = reorderFields order (fields ++ pf) [] := by
    simp only [allFields, hp, okMap, okBind]
    rw [if_neg (by simpa [List.isEmpty_iff] using hne)]
  constructor
  · intro hcov
    rw [hbase, reorder_ok order (fields ++ pf) [] hcov hord hch]
    simp
  · intro nm hnm habs
    obtain ⟨bad, hb⟩ := reorder_error order (fields ++ pf) [] nm hnm habs
    exact ⟨bad, by rw [hbase, hb]⟩

/-- All four key-presence statements at once, by strong induction on the
size of the node / field list. -/
theorem nodeMaps_keys_aux (k : Nat) (ids : Nat → Nat) :
    (∀ n : MNode, sizeOf n ≤ k →
      ∀ m ∈ cppNodeMaps ids n, hasKey "@t" m = true ∧ hasKey "@i" m = true) ∧
    (∀ fs : List MField, sizeOf fs ≤ k →
      ∀ m ∈ cppFieldMaps ids fs,
        hasKey "@t" m = true ∧ hasKey "@i" m = true) ∧
    (∀ n : MNode, sizeOf n ≤ k →
      ∀ m ∈ pyNodeMaps ids n, hasKey "@t" m = true ∧ hasKey "@i" m = true) ∧
    (∀ fs : List MField, sizeOf fs ≤ k →
      ∀ m ∈ pyFieldMaps ids fs,
        hasKey "@t" m = true ∧ hasKey "@i" m = true) := by
  induction k with
  | zero =>
    refine ⟨?_, ?_, ?_, ?_⟩
    · intro n hn
      cases n with
      | mk i t fields =>
        simp only [MNode.mk.sizeOf_spec] at hn
        omega
    · intro fs hfs
      cases fs with
      | nil =>
        intro m hm
        simp [cppFieldMaps] at hm
      | cons f rest =>
        simp only [List.cons.sizeOf_spec] at hfs
        omega
    · intro n hn
      cases n with
      | mk i t fields =>
        simp only [MNode.mk.sizeOf_spec] at hn
        omega
    · intro fs hfs
      cases fs with
      | nil =>
        intro m hm
        simp [pyFieldMaps] at hm
      | cons f rest =>
        simp only [List.cons.sizeOf_spec] at hfs
        omega
  | succ k ih =>
    obtain ⟨ihcn, ihcf, ihpn, ihpf⟩ := ih
    refine ⟨?_, ?_, ?_, ?_⟩
    · intro n hn m hm
      cases n with
      | mk i t fields =>
        simp only [cppNodeMaps] at hm
        simp only [MNode.mk.sizeOf_spec] at hn
        rcases List.mem_cons.mp hm with rfl | hm2
        · constructor
          · simp [hasKey, cppNodeSer]
          · simp [hasKey]
        · exact ihcf fields (by omega) m hm2
    · intro fs hfs m hm
      cases fs with
      | nil =>
        simp [cppFieldMaps] at hm
      | cons f rest =>
        cases f with
        | mk name edge =>
          simp only [List.cons.sizeOf_spec, MField.mk.sizeOf_spec] at hfs
          cases edge with
          | child n =>
            simp only [cppFieldMaps] at hm
            rcases List.mem_append.mp hm with hm1 | hm2
            · have hsz : sizeOf n ≤ k := by
                simp only [MEdge.child.sizeOf_spec] at hfs
                omega
              exact ihcn n hsz m hm1
            · exact ihcf rest (by omega) m hm2
          | childEmpty =>
            simp only [cppFieldMaps, List.nil_append] at hm
            exact ihcf rest (by omega) m hm
          | link tgt =>
            simp only [cppFieldMaps, List.nil_append] at hm
            exact ihcf rest (by omega) m hm
          | prim p =>
            simp only [cppFieldMaps, List.nil_append] at hm
            exact ihcf rest (by omega) m hm
    · intro n hn m hm
      cases n with
      | mk i t fields =>
        simp only [pyNodeMaps] at hm
        simp only [MNode.mk.sizeOf_spec] at hn
        rcases List.mem_cons.mp hm with rfl | hm2
        · constructor
          · simp [hasKey, pyNodeSer]
          · simp [hasKey, pyNodeSer]
        · exact ihpf fields (by omega) m hm2
    · intro fs hfs m hm
      cases fs with
      | nil =>
        simp [pyFieldMaps] at hm
      | cons f rest =>
        cases f with
        | mk name edge =>
          simp only [List.cons.sizeOf_spec, MField.mk.sizeOf_spec] at hfs
          cases edge with
          | child n =>
            simp only [pyFieldMaps] at hm
            rcases List.mem_append.mp hm with hm1 | hm2
            · have hsz : sizeOf n ≤ k := by
                simp only [MEdge.child.sizeOf_spec] at hfs
                omega
              exact ihpn n hsz m hm1
            · exact ihpf rest (by omega) m hm2
          | childEmpty =>
            simp only [pyFieldMaps, List.nil_append] at hm
            exact ihpf rest (by omega) m hm
          | link tgt =>
            simp only [pyFieldMaps, List.nil_append] at hm
            exact ihpf rest (by omega) m hm
          | prim p =>
            simp only [pyFieldMaps, List.nil_append] at hm
            exact ihpf rest (by omega) m hm

/-- C2: every per-node map produced while serializing a tree carries both
a `@t` entry and a `@i` entry — for the C++ emitter's output and for the
Python emitter's output alike. -/
theorem claim_C2_node_map_keys (ids : Nat → Nat) (n : MNode) :
    (∀ m ∈ cppNodeMaps ids n, hasKey "@t" m = true ∧ hasKey "@i" m = true) ∧
    (∀ m ∈ pyNodeMaps ids n, hasKey "@t" m = true ∧ hasKey "@i" m = true) :=
  ⟨(nodeMaps_keys_aux (sizeOf n) ids).1 n le_rfl,
    (nodeMaps_keys_aux (sizeOf n) ids).2.2.1 n le_rfl⟩

/-- C2 witness: the root maps of the sample tree, in both emitters, carry
`@t` and `@i`. -/
theorem claim_C2_node_map_keys_witness :
    (hasKey "@t" (("@i", SV.int 0) :: cppNodeSer (fun i => i) sampleNode)
        = true ∧
      hasKey "@i" (("@i", SV.int 0) :: cppNodeSer (fun i => i) sampleNode)
        = true) ∧
    (hasKey "@t" (pyNodeSer (fun i => i) sampleNode) = true ∧
      hasKey "@i" (pyNodeSer (fun i => i) sampleNode) = true) :=
  ⟨(claim_C2_node_map_keys (fun i => i) sampleNode).1
      (("@i", SV.int 0) :: cppNodeSer (fun i => i) sampleNode)
      (by simp [sampleNode, cppNodeMaps]),
    (claim_C2_node_map_keys (fun i => i) sampleNode).2
      (pyNodeSer (fun i => i) sampleNode)
      (by simp [sampleNode, pyNodeMaps])⟩

/-- C3 (code bug): for a populated link field the Python emitter writes
`field['@l'] = id_map[id(self)]` — the sequence number of the node
CONTAINING the link, independent of the link's target — while the claimed
(and C++) behavior writes the TARGET's sequence number; the scheduled
fix-up then reconnects the link to whichever node was registered under
the written number, so the Python output reconnects the link to its own
container instead of the structurally corresponding node. -/
theorem claim_C3_python_link_target (ids : Nat → Nat) (selfId : Nat)
    (t t' : MNode) :
    pyEdgeSer ids selfId (.link (some t))
      = pyEdgeSer ids selfId (.link (some t')) ∧
    pyEdgeSer ids selfId (.link (some t)) = [("@l", SV.int (ids selfId))] ∧
    cppEdgeSer ids (.link (some t)) = [("@l", SV.int (ids t.ident))] ∧
    IdentifierMap.restore_links ⟨[(0, 100), (1, 101)], [(7, 0)]⟩
      = [(7, some 100)] :=
  ⟨rfl, rfl, rfl, by decide⟩

/-- C10 witness: a node with own fields `a`, `b`, `c`, inherited field
`d`, and reorder declaration `[c, a]` resolves to `c, a, b, d`. -/
theorem claim_C10_field_order_witness :
    allFields (GNode.mk [⟨"a", 0⟩, ⟨"b", 1⟩, ⟨"c", 2⟩] ["c", "a"]
        (some (GNode.mk [⟨"d", 3⟩] [] none)))
      = .ok [⟨"c", 2⟩, ⟨"a", 0⟩, ⟨"b", 1⟩, ⟨"d", 3⟩] := by
  have h := (claim_C10_field_order [⟨"a", 0⟩, ⟨"b", 1⟩, ⟨"c", 2⟩] [⟨"d", 3⟩]
    ["c", "a"] (GNode.mk [⟨"d", 3⟩] [] none) (by simp [allFields])
    (by decide) (by decide) (by decide)).1 (by decide)
  exact h.trans (by decide)

end Gen

end TreeGen
